import Mathlib

/-!
Verification model of the nx monorepo build-orchestration core.

Definitions are shallow embeddings of the repository's code where the code
is present under src/ (the jest executor in src/unnamed/part_000, the
devkit Executor type documented in src/unnamed/part_001, and readNxJson in
src/packages/nx/src/config/nx-json.ts).  The task-graph resolution and
execution core itself (target resolver, task graph builder, scheduler) is
not part of the source tree; those components are modelled from the
specification, as marked on each definition.
-/

set_option maxHeartbeats 1600000

/-- A JSON-like value: the open-ended options bags of target configurations
and nx.json are arbitrary nested JSON values. -/
inductive JVal where
  | jnull : JVal
  | jbool (b : Bool) : JVal
  | jnum (n : Int) : JVal
  | jstr (s : String) : JVal
  | jarr (xs : List JVal) : JVal
  | jobj (fields : List (String × JVal)) : JVal

/-- An options bag: a JSON object represented as an association list. -/
abbrev Bag := List (String × JVal)

/-- First-match association-list lookup (JS object property access). -/
def alookup {β : Type} : List (String × β) → String → Option β
  | [], _ => none
  | p :: ps, k => if p.1 = k then some p.2 else alookup ps k

/-- Whether a JSON value is an object. -/
def JVal.isObj : JVal → Bool
  | .jobj _ => true
  | _ => false

/-- JavaScript truthiness of a JSON value (empty string, zero and null are
falsy; arrays and objects are truthy). -/
def JVal.truthy : JVal → Bool
  | .jnull => false
  | .jbool b => b
  | .jnum n => n ≠ 0
  | .jstr s => s ≠ ""
  | .jarr _ => true
  | .jobj _ => true

/-- Modelled from the spec: recursive right-biased merge of option values —
"object keys merge, arrays and scalars replace" (design note on open-ended
options bags).  The later (second) argument wins except that two objects
are merged key by key. -/
def mergeVal (a b : JVal) : JVal :=
  match a, b with
  | .jobj fs, .jobj gs =>
      .jobj (fs.attach.map
               (fun p =>
                 match alookup gs p.1.1 with
                 | some w => (p.1.1, mergeVal p.1.2 w)
                 | none => p.1)
             ++ gs.filter (fun q => (alookup fs q.1).isNone))
  | _, _ => b
termination_by sizeOf a
decreasing_by
  simp_wf
  have h1 := List.sizeOf_lt_of_mem p.2
  have h2 : sizeOf p.1.2 < sizeOf p.1 := by
    cases p.1
    simp
  omega

/-- Override an association list with a later one: keys of the first list
keep their position with the later value combined in, keys only in the
later list are appended. -/
def overrideWith (comb : JVal → JVal → JVal) (fs gs : Bag) : Bag :=
  fs.map (fun p =>
    match alookup gs p.1 with
    | some w => (p.1, comb p.2 w)
    | none => p)
  ++ gs.filter (fun q => (alookup fs q.1).isNone)

/-- Modelled from the spec: merge a later options bag over a base bag —
for every key of the later bag the later value wins (recursively merged
when both values are objects); keys only in the base are kept. -/
def mergeBag (fs gs : Bag) : Bag := overrideWith mergeVal fs gs

/-- JavaScript object spread of the base configuration with the extending
configuration on top (readNxJson): a top-level shallow merge in which the
extending value replaces the base value outright. -/
def spreadMerge (base ext : Bag) : Bag := overrideWith (fun _ v => v) base ext

/-! ### Association list lemmas -/

theorem alookup_append {β : Type} (l₁ l₂ : List (String × β)) (k : String) :
    alookup (l₁ ++ l₂) k =
      match alookup l₁ k with
      | some v => some v
      | none => alookup l₂ k := by
  induction l₁ with
  | nil => simp [alookup]
  | cons p ps ih =>
      by_cases h : p.1 = k <;> simp [alookup, h, ih]

theorem alookup_overrideWith_map (comb : JVal → JVal → JVal)
    (fs gs : Bag) (k : String) :
    alookup (fs.map (fun p =>
      match alookup gs p.1 with
      | some w => (p.1, comb p.2 w)
      | none => p)) k =
      match alookup fs k with
      | some vf =>
          some (match alookup gs k with
                | some vg => comb vf vg
                | none => vf)
      | none => none := by
  induction fs with
  | nil => simp [alookup]
  | cons p ps ih =>
      by_cases hk : p.1 = k
      · subst hk
        cases hg : alookup gs p.1 <;> simp [alookup, hg]
      · cases hg : alookup gs p.1 <;> simp [alookup, hk, hg, ih]

theorem alookup_filter_not_in (fs gs : Bag) (k : String) :
    alookup (gs.filter (fun q => (alookup fs q.1).isNone)) k =
      if (alookup fs k).isNone then alookup gs k else none := by
  induction gs with
  | nil => simp [alookup]
  | cons q qs ih =>
      by_cases hq : (alookup fs q.1).isNone
      · by_cases hk : q.1 = k
        · subst hk
          simp [alookup, List.filter, hq]
        · simp [alookup, List.filter, hq, hk, ih]
      · by_cases hk : q.1 = k
        · subst hk
          simp [alookup, List.filter, hq, ih]
        · simp [alookup, List.filter, hq, hk, ih]

theorem alookup_overrideWith (comb : JVal → JVal → JVal)
    (fs gs : Bag) (k : String) :
    alookup (overrideWith comb fs gs) k =
      match alookup fs k, alookup gs k with
      | some vf, some vg => some (comb vf vg)
      | some vf, none => some vf
      | none, o => o := by
  rw [overrideWith, alookup_append, alookup_overrideWith_map,
    alookup_filter_not_in]
  cases hf : alookup fs k <;> cases hg : alookup gs k <;> simp [hf, hg]

/-- Lookup in a merged bag: a key present in both maps to the recursive
merge of the two values, a key present in one maps to that value. -/
theorem alookup_mergeBag (fs gs : Bag) (k : String) :
    alookup (mergeBag fs gs) k =
      match alookup fs k, alookup gs k with
      | some vf, some vg => some (mergeVal vf vg)
      | some vf, none => some vf
      | none, o => o := by
  rw [mergeBag, alookup_overrideWith]

theorem alookup_spreadMerge (base ext : Bag) (k : String) :
    alookup (spreadMerge base ext) k =
      match alookup ext k with
      | some v => some v
      | none => alookup base k := by
  rw [spreadMerge, alookup_overrideWith]
  cases hb : alookup base k <;> cases he : alookup ext k <;> simp [hb, he]

/-- The later value wins outright unless both values are objects. -/
theorem mergeVal_eq_right (a b : JVal) (h : a.isObj = false ∨ b.isObj = false) :
    mergeVal a b = b := by
  cases a <;> cases b <;> first
    | (simp [mergeVal]; done)
    | (simp [JVal.isObj] at h)

/-! ### The jest executor (src/unnamed/part_000) -/

/-- The jest executor options that drive its control flow
(src/unnamed/part_000, JestExecutorOptions fields used at lines 88-122). -/
structure JestExecutorOptions where
  testWithArtifacts : Bool
  watch : Bool
  watchAll : Bool
deriving DecidableEq

/-- Outcomes of the external collaborators the jest executor calls:
whether checkDependentProjectsHaveBeenBuilt reports true, and the success
flag the jest runCLI run reports. -/
structure JestExternal where
  depsBuilt : Bool
  cliSuccess : Bool
deriving DecidableEq

/-- Result of one jest executor invocation: the returned success flag and
whether the jest CLI (runCLI) was invoked at all. -/
structure JestRunOutcome where
  success : Bool
  invokedCli : Bool
deriving DecidableEq

/-- The jest executor control flow (src/unnamed/part_000 lines 81-123):
with testWithArtifacts set and neither watch nor watchAll, it checks that
dependent projects have been built and returns success false without
running the CLI when they have not; in every other case it runs the CLI
and returns the success the run reports. -/
def jestExecutor (o : JestExecutorOptions) (e : JestExternal) : JestRunOutcome :=
  if o.testWithArtifacts && !o.watch && !o.watchAll then
    if !e.depsBuilt then { success := false, invokedCli := false }
    else { success := e.cliSuccess, invokedCli := true }
  else { success := e.cliSuccess, invokedCli := true }

/-- A single executor result record (the { success: boolean } shape). -/
structure SuccessRecord where
  success : Bool
deriving DecidableEq

/-- Eventual result of an executor (src/unnamed/part_001 lines 339-362):
either a single { success } record (a resolved Promise) or, for continuous
targets, a lazy sequence of { success } records (an AsyncIterableIterator,
modelled as a stream indexed by Nat). -/
inductive ExecutorOutcome where
  | single (r : SuccessRecord) : ExecutorOutcome
  | sequence (rs : Nat → SuccessRecord) : ExecutorOutcome

/-- The Executor contract (src/unnamed/part_001): a function of options and
context returning an ExecutorOutcome. -/
def Executor (O C : Type) : Type := O → C → ExecutorOutcome

/-- The jest executor packaged under the Executor contract: its TypeScript
signature returns a Promise of one { success: boolean } record. -/
def jestExecutorContract : Executor JestExecutorOptions JestExternal :=
  fun o e => .single { success := (jestExecutor o e).success }

/-! ### readNxJson (src/packages/nx/src/config/nx-json.ts lines 811-834) -/

/-- The file-system inputs readNxJson consumes: the parsed nx.json if the
file exists, module resolution plus JSON read of an extends path (none
models a thrown resolution or read error), and the bundled preset
core.json if readable. -/
structure NxJsonFs where
  nxJson : Option Bag
  resolveBaseFile : String → Option Bag
  preset : Option Bag

/-- readNxJson (src/packages/nx/src/config/nx-json.ts lines 811-834): if
nx.json exists and its extends field is truthy, resolve and read the base
file and return the spread of the base under the extending configuration;
with no truthy extends return the parsed content unchanged; with no
nx.json fall back to the preset or the empty configuration.  A truthy
non-string extends value makes require.resolve throw, modelled as an
error. -/
def readNxJson (fs : NxJsonFs) : Except String Bag :=
  match fs.nxJson with
  | some cfg =>
      match alookup cfg "extends" with
      | some v =>
          if v.truthy then
            match v with
            | .jstr path =>
                match fs.resolveBaseFile path with
                | some base => .ok (spreadMerge base cfg)
                | none => .error "cannot resolve extended nx.json"
            | _ => .error "extends must be a module path string"
          else .ok cfg
      | none => .ok cfg
  | none =>
      match fs.preset with
      | some p => .ok p
      | none => .ok []

/-! ### Configuration model and target resolver (modelled from the spec) -/

/-- Modelled from the spec: the projects field of a structured dependsOn
entry — same project, all dependency projects (the caret marker), or an
explicit list of project names. -/
inductive DepProjects where
  | self : DepProjects
  | dependencies : DepProjects
  | named (ps : List String) : DepProjects
deriving DecidableEq

/-- Modelled from the spec: a structured dependsOn entry
{ projects, target }. -/
structure TargetDependencyConfig where
  projects : DepProjects
  target : String
deriving DecidableEq

/-- Modelled from the spec: one dependsOn entry — either a bare target
name on the same project or a structured record. -/
inductive DepEntry where
  | targetName (t : String) : DepEntry
  | depConfig (d : TargetDependencyConfig) : DepEntry
deriving DecidableEq

/-- Modelled from the spec: a target configuration — executor identifier,
options bag, named configuration overlays, dependsOn declarations,
declared outputs and the continuous flag.  Fields that the merge
"overwrites when present in the more specific source" (executor,
dependsOn, outputs, continuous) are optional so presence is observable. -/
structure TargetConfiguration where
  executor : Option String := none
  options : Bag := []
  configurations : List (String × Bag) := []
  dependsOn : Option (List DepEntry) := none
  outputs : Option (List String) := none
  continuous : Option Bool := none

/-- Modelled from the spec: a project — unique name, root directory and
the mapping from target name to target configuration. -/
structure Project where
  name : String
  root : String := ""
  targets : List (String × TargetConfiguration) := []

/-- Modelled from the spec: the type of a project graph dependency edge —
static, implicit or dynamic. -/
inductive DependencyType where
  | static : DependencyType
  | implicit : DependencyType
  | dynamic : DependencyType
deriving DecidableEq

/-- Modelled from the spec: one project graph edge, directed from the
dependent project to its dependency. -/
structure ProjectGraphDependency where
  source : String
  target : String
  kind : DependencyType

/-- Modelled from the spec: the project graph — projects as nodes and
typed edges; the graph may be cyclic at the project level. -/
structure ProjectGraph where
  nodes : List Project
  dependencies : List ProjectGraphDependency

/-- Modelled from the spec: the inputs graph construction is a pure
function of — the project graph, explicitly threaded workspace-wide target
defaults, and the workspace root used for token interpolation. -/
structure Workspace where
  graph : ProjectGraph
  targetDefaults : List (String × TargetConfiguration) := []
  workspaceRoot : String := ""

/-- Modelled from the spec: the resolver error taxonomy. -/
inductive ResolveError where
  | TargetNotFound : ResolveError
  | ConfigurationNotFound : ResolveError
deriving DecidableEq

/-- Modelled from the spec: merge named-configuration overlays of two
target configurations — overlays present in both are merged key by key,
overlays of one side are kept. -/
def mergeConfigBags (base over : List (String × Bag)) :
    List (String × Bag) :=
  base.map (fun p =>
    match alookup over p.1 with
    | some b => (p.1, mergeBag p.2 b)
    | none => p)
  ++ over.filter (fun q => (alookup base q.1).isNone)

/-- Modelled from the spec: shallow-merge the more specific target
configuration on top of a base — scalar fields overwrite when present,
the options and named-configuration bags are merged key by key, and the
dependsOn and outputs arrays are replaced entirely by the most specific
source that declares them. -/
def mergeTargetConfiguration (base over : TargetConfiguration) :
    TargetConfiguration where
  executor := over.executor <|> base.executor
  options := mergeBag base.options over.options
  configurations := mergeConfigBags base.configurations over.configurations
  dependsOn := over.dependsOn <|> base.dependsOn
  outputs := over.outputs <|> base.outputs
  continuous := over.continuous <|> base.continuous

/-- Modelled from the spec: the project's own declaration for a target
name (the empty configuration when the project does not declare it). -/
def projectTargetDecl (proj : Project) (t : String) : TargetConfiguration :=
  (alookup proj.targets t).getD {}

/-- Modelled from the spec: the workspace-wide target default matched by
target name or, failing that, by the executor name of the project's own
declaration; the empty configuration when neither matches. -/
def defaultsBase (w : Workspace) (proj : Project) (t : String) :
    TargetConfiguration :=
  match alookup w.targetDefaults t with
  | some d => d
  | none =>
      match (alookup proj.targets t).bind (fun tc => tc.executor) with
      | some ex => (alookup w.targetDefaults ex).getD {}
      | none => {}

/-- Modelled from the spec: the target configuration after merging the
project-level declaration on top of the workspace-wide defaults. -/
def mergedTarget (w : Workspace) (proj : Project) (t : String) :
    TargetConfiguration :=
  mergeTargetConfiguration (defaultsBase w proj t) (projectTargetDecl proj t)

/-- Modelled from the spec: interpolate the projectRoot, projectName and
workspaceRoot tokens and the options self-reference tokens inside one
string option value. -/
def interpString (w : Workspace) (proj : Project) (opts : Bag)
    (s : String) : String :=
  let s1 := ((s.replace "\x7bprojectRoot\x7d" proj.root).replace
      "\x7bprojectName\x7d" proj.name).replace
      "\x7bworkspaceRoot\x7d" w.workspaceRoot
  opts.foldl (fun acc p =>
    match p.2 with
    | .jstr v => acc.replace ("\x7boptions." ++ p.1 ++ "\x7d") v
    | _ => acc) s1

/-- Modelled from the spec: the final interpolation pass over the merged
options bag — substitution inside string values only. -/
def interpolateBag (w : Workspace) (proj : Project) (opts : Bag) : Bag :=
  opts.map (fun p =>
    match p.2 with
    | .jstr s => (p.1, .jstr (interpString w proj opts s))
    | _ => p)

/-- Modelled from the spec: the final resolver step after all merging —
fail with TargetNotFound when no executor field is resolved, otherwise
apply the interpolation pass to the options. -/
def finishResolve (w : Workspace) (proj : Project)
    (tc : TargetConfiguration) : Except ResolveError TargetConfiguration :=
  match tc.executor with
  | none => .error .TargetNotFound
  | some _ => .ok { tc with options := interpolateBag w proj tc.options }

/-- Modelled from the spec: resolve a target of a project — merge defaults
and the project declaration, then, when a configuration name is supplied,
merge the matching overlay on top of the base options (failing with
ConfigurationNotFound when the name does not exist on the target), and
finally fail with TargetNotFound when no executor is resolved. -/
def resolveTarget (w : Workspace) (proj : Project) (t : String)
    (c : Option String) : Except ResolveError TargetConfiguration :=
  let m := mergedTarget w proj t
  match c with
  | some cname =>
      match alookup m.configurations cname with
      | none => .error .ConfigurationNotFound
      | some overlay =>
          finishResolve w proj { m with options := mergeBag m.options overlay }
  | none => finishResolve w proj m

/-! ### Claims about the jest executor and readNxJson -/

/-- C9: if the jest executor runs with testWithArtifacts set and neither
watch nor watchAll, and the dependent-projects-built check reports false,
it returns success false without invoking the jest CLI; in every other
case the returned success equals the success the jest run reports. -/
theorem claim9_jest_artifacts_gate :
    (∀ (o : JestExecutorOptions) (e : JestExternal),
      (o.testWithArtifacts && !o.watch && !o.watchAll) = true →
      e.depsBuilt = false →
      jestExecutor o e = { success := false, invokedCli := false }) ∧
    (∀ (o : JestExecutorOptions) (e : JestExternal),
      (o.testWithArtifacts && !o.watch && !o.watchAll) = false ∨
        e.depsBuilt = true →
      jestExecutor o e = { success := e.cliSuccess, invokedCli := true }) := by
  constructor
  · intro o e h1 h2
    simp [jestExecutor, h1, h2]
  · intro o e h
    rcases h with h | h
    · simp [jestExecutor, h]
    · by_cases hc : (o.testWithArtifacts && !o.watch && !o.watchAll) = true <;>
        simp [jestExecutor, hc, h]

/-- Witness for C9 at concrete inputs: the artifacts gate returns early on
an unbuilt dependency, and the CLI result is passed through otherwise. -/
theorem claim9_witness :
    jestExecutor ⟨true, false, false⟩ ⟨false, true⟩ =
      { success := false, invokedCli := false } ∧
    jestExecutor ⟨true, false, false⟩ ⟨true, true⟩ =
      { success := true, invokedCli := true } :=
  ⟨claim9_jest_artifacts_gate.1 ⟨true, false, false⟩ ⟨false, true⟩
      (by decide) (by decide),
    claim9_jest_artifacts_gate.2 ⟨true, false, false⟩ ⟨true, true⟩
      (Or.inr rfl)⟩

/-- C8: the jest executor, seen under the devkit Executor contract, always
produces a single { success } record — the success of the jest run — and
never a lazy sequence. -/
theorem claim8_executor_single_result :
    ∀ (o : JestExecutorOptions) (e : JestExternal),
      jestExecutorContract o e =
        ExecutorOutcome.single { success := (jestExecutor o e).success } ∧
      ∀ rs, jestExecutorContract o e ≠ ExecutorOutcome.sequence rs := by
  intro o e
  refine ⟨rfl, fun rs h => ?_⟩
  simp [jestExecutorContract] at h

/-- Witness for C8 at a concrete input. -/
theorem claim8_witness :
    jestExecutorContract ⟨false, false, false⟩ ⟨true, true⟩ =
      ExecutorOutcome.single { success := true } :=
  (claim8_executor_single_result ⟨false, false, false⟩ ⟨true, true⟩).1

/-- C10: when nx.json exists and declares a (truthy string) extends base
that resolves, readNxJson returns the top-level shallow spread merge in
which, for every key present in the extending file, the extending value
wins, and base-only keys fall through; when no extends key is present the
parsed content is returned unchanged. -/
theorem claim10_readNxJson_extends_merge :
    (∀ (fs : NxJsonFs) (cfg : Bag) (path : String) (base : Bag),
      fs.nxJson = some cfg →
      alookup cfg "extends" = some (.jstr path) →
      path ≠ "" →
      fs.resolveBaseFile path = some base →
      readNxJson fs = .ok (spreadMerge base cfg) ∧
      (∀ k v, alookup cfg k = some v →
        alookup (spreadMerge base cfg) k = some v) ∧
      (∀ k, alookup cfg k = none →
        alookup (spreadMerge base cfg) k = alookup base k)) ∧
    (∀ (fs : NxJsonFs) (cfg : Bag),
      fs.nxJson = some cfg →
      alookup cfg "extends" = none →
      readNxJson fs = .ok cfg) := by
  constructor
  · intro fs cfg path base h1 h2 h3 h4
    refine ⟨?_, ?_, ?_⟩
    · simp [readNxJson, h1, h2, h4, JVal.truthy, h3]
    · intro k v hk
      rw [alookup_spreadMerge, hk]
    · intro k hk
      rw [alookup_spreadMerge, hk]
  · intro fs cfg h1 h2
    simp [readNxJson, h1, h2]

/-- Witness for C10 at a concrete workspace: the extending file's value
for the parallel key wins over the base, base-only keys survive, and an
extends-free nx.json is returned unchanged. -/
theorem claim10_witness :
    readNxJson
        { nxJson := some [("extends", .jstr "nx/presets/npm.json"),
                      ("parallel", .jnum 3)],
          resolveBaseFile := fun _ =>
              some [("parallel", .jnum 1), ("cacheDirectory", .jstr "c")],
          preset := none } =
      .ok (spreadMerge [("parallel", .jnum 1), ("cacheDirectory", .jstr "c")]
        [("extends", .jstr "nx/presets/npm.json"), ("parallel", .jnum 3)]) ∧
    alookup (spreadMerge [("parallel", .jnum 1), ("cacheDirectory", .jstr "c")]
        [("extends", .jstr "nx/presets/npm.json"), ("parallel", .jnum 3)])
        "parallel" = some (.jnum 3) ∧
    readNxJson { nxJson := some [("parallel", .jnum 3)],
                 resolveBaseFile := fun _ => none, preset := none } =
      .ok [("parallel", .jnum 3)] := by
  have h := claim10_readNxJson_extends_merge.1
    { nxJson := some [("extends", .jstr "nx/presets/npm.json"),
                  ("parallel", .jnum 3)],
      resolveBaseFile := fun _ =>
          some [("parallel", .jnum 1), ("cacheDirectory", .jstr "c")],
      preset := none }
    [("extends", .jstr "nx/presets/npm.json"), ("parallel", .jnum 3)]
    "nx/presets/npm.json"
    [("parallel", .jnum 1), ("cacheDirectory", .jstr "c")]
    rfl (by simp [alookup]) (by decide) rfl
  refine ⟨h.1, h.2.1 "parallel" (.jnum 3) (by simp [alookup]),
    claim10_readNxJson_extends_merge.2 _ _ rfl (by simp [alookup])⟩

/-! ### Claims about the target resolver -/

/-- C7: target resolution either returns an effective configuration or
fails; it fails with ConfigurationNotFound exactly when a configuration
name is supplied that does not exist on the merged target, and with
TargetNotFound exactly when the configuration stage passes but the merge
resolves no executor. -/
theorem claim7_resolve_errors :
    ∀ (w : Workspace) (proj : Project) (t : String) (c : Option String),
      (resolveTarget w proj t c = .error .ConfigurationNotFound ↔
        ∃ cn, c = some cn ∧
          alookup (mergedTarget w proj t).configurations cn = none) ∧
      (resolveTarget w proj t c = .error .TargetNotFound ↔
        ((∀ cn, c = some cn →
            (alookup (mergedTarget w proj t).configurations cn).isSome) ∧
          (mergedTarget w proj t).executor = none)) ∧
      (∀ tc, resolveTarget w proj t c = .ok tc → tc.executor.isSome) := by
  intro w proj t c
  cases c with
  | none =>
      cases hex : (mergedTarget w proj t).executor with
      | none =>
          refine ⟨?_, ?_, ?_⟩
          · simp [resolveTarget, finishResolve, hex]
          · simp [resolveTarget, finishResolve, hex]
          · intro tc htc
            simp [resolveTarget, finishResolve, hex] at htc
      | some ex =>
          refine ⟨?_, ?_, ?_⟩
          · simp [resolveTarget, finishResolve, hex]
          · simp [resolveTarget, finishResolve, hex]
          · intro tc htc
            simp [resolveTarget, finishResolve, hex] at htc
            rw [← htc]
            simp [hex]
  | some cname =>
      cases hcfg : alookup (mergedTarget w proj t).configurations cname with
      | none =>
          refine ⟨?_, ?_, ?_⟩
          · simp [resolveTarget, hcfg]
          · simp [resolveTarget, hcfg]
          · intro tc htc
            simp [resolveTarget, hcfg] at htc
      | some overlay =>
          cases hex : (mergedTarget w proj t).executor with
          | none =>
              refine ⟨?_, ?_, ?_⟩
              · simp [resolveTarget, finishResolve, hcfg, hex]
              · simp [resolveTarget, finishResolve, hcfg, hex]
              · intro tc htc
                simp [resolveTarget, finishResolve, hcfg, hex] at htc
          | some ex =>
              refine ⟨?_, ?_, ?_⟩
              · simp [resolveTarget, finishResolve, hcfg, hex]
              · simp [resolveTarget, finishResolve, hcfg, hex]
              · intro tc htc
                simp [resolveTarget, finishResolve, hcfg, hex] at htc
                rw [← htc]
                simp [hex]

/-- C4: the merged options bag for a named configuration equals the merge
of the workspace defaults with the project-level declaration, with the
configuration's overrides applied last (before the final interpolation
pass); for a key present in two sources the later source's value wins (the
recursive right-biased merge, which replaces the earlier value outright
unless both values are objects); the merge is not order independent on
conflicting keys. -/
theorem claim4_options_merge_precedence :
    (∀ (w : Workspace) (proj : Project) (t cname : String)
        (tc : TargetConfiguration),
      resolveTarget w proj t (some cname) = .ok tc →
      ∃ overlay,
        alookup (mergedTarget w proj t).configurations cname = some overlay ∧
        tc.options = interpolateBag w proj
          (mergeBag (mergeBag (defaultsBase w proj t).options
            (projectTargetDecl proj t).options) overlay)) ∧
    (∀ (fs gs : Bag) (k : String) (vf vg : JVal),
      alookup fs k = some vf → alookup gs k = some vg →
      alookup (mergeBag fs gs) k = some (mergeVal vf vg)) ∧
    (∀ vf vg : JVal, vf.isObj = false ∨ vg.isObj = false →
      mergeVal vf vg = vg) ∧
    (∃ (fs gs : Bag) (k : String),
      alookup (mergeBag fs gs) k ≠ alookup (mergeBag gs fs) k) := by
  refine ⟨?_, ?_, mergeVal_eq_right, ?_⟩
  · intro w proj t cname tc htc
    cases hcfg : alookup (mergedTarget w proj t).configurations cname with
    | none => simp [resolveTarget, hcfg] at htc
    | some overlay =>
        refine ⟨overlay, rfl, ?_⟩
        cases hex : (mergedTarget w proj t).executor with
        | none => simp [resolveTarget, finishResolve, hcfg, hex] at htc
        | some ex =>
            simp [resolveTarget, finishResolve, hcfg, hex] at htc
            rw [← htc]
            rfl
  · intro fs gs k vf vg hf hg
    rw [alookup_mergeBag, hf, hg]
  · refine ⟨[("a", .jnum 1)], [("a", .jnum 2)], "a", ?_⟩
    rw [alookup_mergeBag, alookup_mergeBag]
    simp [alookup, mergeVal]

/-- A concrete workspace-wide target default used by witnesses. -/
def exDefaults : List (String × TargetConfiguration) :=
  [("build", { executor := some "tsc", options := [("base", .jnum 1)] })]

/-- A concrete project used by witnesses. -/
def exAppProject : Project :=
  { name := "app",
    targets := [("build",
      { options := [("opt", .jnum 2)],
        configurations := [("prod", [("extra", .jnum 3)])] })] }

/-- A concrete workspace used by witnesses. -/
def exWorkspace : Workspace :=
  { graph := { nodes := [exAppProject], dependencies := [] },
    targetDefaults := exDefaults }

/-- Witness for C4 at a concrete resolution: the production configuration
overlay is applied last on top of defaults merged with the project
declaration, and later sources win on conflicting keys. -/
theorem claim4_witness :
    (∃ overlay,
      alookup (mergedTarget exWorkspace exAppProject "build").configurations
          "prod" = some overlay ∧
      ({ executor := some "tsc",
         options := [("base", .jnum 1), ("opt", .jnum 2), ("extra", .jnum 3)],
         configurations := [("prod", [("extra", .jnum 3)])] } :
           TargetConfiguration).options =
        interpolateBag exWorkspace exAppProject
          (mergeBag (mergeBag
            (defaultsBase exWorkspace exAppProject "build").options
            (projectTargetDecl exAppProject "build").options) overlay)) ∧
    alookup (mergeBag [("k", .jnum 1)] [("k", .jnum 2)]) "k" =
      some (mergeVal (.jnum 1) (.jnum 2)) ∧
    mergeVal (.jnum 1) (.jnum 2) = .jnum 2 :=
  ⟨claim4_options_merge_precedence.1 exWorkspace exAppProject "build" "prod"
      _ rfl,
    claim4_options_merge_precedence.2.1 _ _ "k" _ _ rfl rfl,
    claim4_options_merge_precedence.2.2.1 _ _ (Or.inl rfl)⟩

/-- Witness for C7 at concrete inputs: a missing configuration name fails
with ConfigurationNotFound, a target with no resolvable executor fails
with TargetNotFound, and a resolvable target succeeds. -/
theorem claim7_witness :
    resolveTarget exWorkspace exAppProject "build" (some "nope") =
      .error .ConfigurationNotFound ∧
    resolveTarget exWorkspace exAppProject "lint" none =
      .error .TargetNotFound ∧
    (∀ tc, resolveTarget exWorkspace exAppProject "build" none = .ok tc →
      tc.executor.isSome) :=
  ⟨(claim7_resolve_errors exWorkspace exAppProject "build"
      (some "nope")).1.mpr ⟨"nope", rfl, rfl⟩,
    (claim7_resolve_errors exWorkspace exAppProject "lint" none).2.1.mpr
      ⟨(fun _ hcn => nomatch hcn), rfl⟩,
    (claim7_resolve_errors exWorkspace exAppProject "build" none).2.2⟩

/-! ### Task graph builder (modelled from the spec) -/

/-- Modelled from the spec: a task identifier — derived deterministically
from the (project, target, configuration) triple, so identical requests
collapse to one node. -/
structure TaskId where
  project : String
  target : String
  configuration : Option String := none
deriving DecidableEq

/-- Modelled from the spec: errors of the dependency expansion step. -/
inductive DepError where
  | missingDependencyTarget (project target : String) : DepError
  | resolution (e : ResolveError) : DepError
deriving DecidableEq

/-- Modelled from the spec: the task graph builder error taxonomy. -/
inductive BuildError where
  | cyclicTaskDependency (cycle : List TaskId) : BuildError
  | depError (e : DepError) : BuildError
  | outOfFuel : BuildError
deriving DecidableEq

/-- Find a project node of the project graph by name. -/
def findProject (w : Workspace) (pname : String) : Option Project :=
  w.graph.nodes.find? (fun p => p.name == pname)

/-- Modelled from the spec: the projects reached by traversing the project
graph's static and implicit (not dynamic) dependency edges of one
project. -/
def depProjects (w : Workspace) (pname : String) : List Project :=
  (w.graph.dependencies.filter
    (fun e => e.source == pname && !(e.kind == DependencyType.dynamic))).filterMap
    (fun e => findProject w e.target)

/-- Whether a project declares a target of the given name. -/
def declaresTarget (p : Project) (t : String) : Bool :=
  (alookup p.targets t).isSome

/-- Map a fallible function over a list, stopping at the first error. -/
def exceptMapM {α β ε : Type} (f : α → Except ε β) : List α → Except ε (List β)
  | [] => .ok []
  | a :: as =>
      match f a with
      | .error e => .error e
      | .ok b =>
          match exceptMapM f as with
          | .error e => .error e
          | .ok bs => .ok (b :: bs)

/-- Modelled from the spec: expand one dependsOn entry of a task of the
given project into dependency task ids — a bare target name or a self
entry names the same project; a dependencies (caret) entry names every
dependency project that declares the target, silently skipping the
projects that lack it; an explicit project list fails with
MissingDependencyTarget on any named project that lacks the target.
The spec does not state how a named configuration propagates to
dependency tasks, so dependency tasks carry no configuration name. -/
def expandDepEntry (w : Workspace) (proj : Project) (e : DepEntry) :
    Except DepError (List TaskId) :=
  match e with
  | .targetName t => .ok [{ project := proj.name, target := t }]
  | .depConfig d =>
      match d.projects with
      | .self => .ok [{ project := proj.name, target := d.target }]
      | .dependencies =>
          .ok (((depProjects w proj.name).filter
              (fun p => declaresTarget p d.target)).map
            (fun p => { project := p.name, target := d.target }))
      | .named ps =>
          exceptMapM (fun pn =>
            match findProject w pn with
            | some p =>
                if declaresTarget p d.target then
                  .ok { project := pn, target := d.target }
                else .error (.missingDependencyTarget pn d.target)
            | none => .error (.missingDependencyTarget pn d.target)) ps

/-- Modelled from the spec: the dependency task ids of one task — resolve
its effective target configuration and expand every dependsOn entry in
declared order. -/
def computeDepIds (w : Workspace) (id : TaskId) :
    Except DepError (List TaskId) :=
  match findProject w id.project with
  | none => .error (.resolution .TargetNotFound)
  | some proj =>
      match resolveTarget w proj id.target id.configuration with
      | .error e => .error (.resolution e)
      | .ok tc =>
          match exceptMapM (expandDepEntry w proj) (tc.dependsOn.getD []) with
          | .error e => .error e
          | .ok ls => .ok ls.flatten

/-- The mutable state of graph expansion: interned tasks in completion
order, and the dependency edges discovered so far. -/
structure BuildState where
  order : List TaskId := []
  edges : List (TaskId × TaskId) := []
deriving DecidableEq

/-- Record one dependency edge from the parent task (none for root
requests, which contribute no edge). -/
def pushEdge (s : BuildState) (parent : Option TaskId) (d : TaskId) :
    BuildState :=
  match parent with
  | some p => { s with edges := s.edges ++ [(p, d)] }
  | none => s

/-- Modelled from the spec: depth-first expansion of a list of task ids
with interning and cycle detection.  An id already interned only
contributes an edge; an id on the in-progress expansion stack fails with
CyclicTaskDependency naming the cycle; otherwise its dependencies are
computed, expanded recursively under the deepened stack, and the id is
appended to the interned order.  The fuel argument bounds the recursion
depth; buildTaskGraph supplies enough fuel for it never to run out. -/
def expandGo (w : Workspace) (fuel : Nat) (stack : List TaskId)
    (parent : Option TaskId) (s : BuildState) (ds : List TaskId) :
    Except BuildError BuildState :=
  match fuel, ds with
  | _, [] => .ok s
  | 0, _ :: _ => .error .outOfFuel
  | Nat.succ fuel', d :: rest =>
      if d ∈ s.order then
        expandGo w (Nat.succ fuel') stack parent (pushEdge s parent d) rest
      else if d ∈ stack then
        .error (.cyclicTaskDependency (d :: stack))
      else
        match computeDepIds w d with
        | .error e => .error (.depError e)
        | .ok dds =>
            match expandGo w fuel' (d :: stack) (some d) s dds with
            | .error e => .error e
            | .ok s1 =>
                expandGo w (Nat.succ fuel') stack parent
                  (pushEdge { s1 with order := s1.order ++ [d] } parent d) rest
termination_by (fuel, ds.length)

/-- Modelled from the spec: the names a dependsOn list can mention. -/
def targetNamesOf (tc : TargetConfiguration) : List String :=
  (tc.dependsOn.getD []).map (fun e =>
    match e with
    | .targetName t => t
    | .depConfig d => d.target)

/-- Every target name the workspace can mention: keys of the target
defaults, keys of every project's target map, and every target name named
by a dependsOn entry of either. -/
def allTargetNames (w : Workspace) : List String :=
  w.targetDefaults.map (fun p => p.1)
  ++ (w.targetDefaults.map (fun p => targetNamesOf p.2)).flatten
  ++ (w.graph.nodes.map (fun p => p.targets.map (fun q => q.1))).flatten
  ++ (w.graph.nodes.map (fun p =>
        (p.targets.map (fun q => targetNamesOf q.2)).flatten)).flatten

/-- The finite universe of task ids an expansion can ever reach: the
requested ids plus one configurationless id per project and mentionable
target name. -/
def taskUniverse (w : Workspace) (requests : List TaskId) : List TaskId :=
  requests ++ (w.graph.nodes.map (fun p =>
    (allTargetNames w).map (fun t =>
      ({ project := p.name, target := t } : TaskId)))).flatten

/-- Modelled from the spec: the task graph — interned task nodes,
dependency edges, and the requested roots. -/
structure TaskGraph where
  nodes : List TaskId
  edges : List (TaskId × TaskId)
  roots : List TaskId
deriving DecidableEq

/-- Modelled from the spec: build the task graph of a list of requested
(project, target, configuration) triples by depth-first expansion with
interning and cycle detection. -/
def buildTaskGraph (w : Workspace) (requests : List TaskId) :
    Except BuildError TaskGraph :=
  match expandGo w ((taskUniverse w requests).length + 1) [] none {} requests with
  | .error e => .error e
  | .ok s => .ok { nodes := s.order, edges := s.edges, roots := requests }

/-! ### Builder invariants: groundwork -/

theorem alookup_mem {β : Type} {l : List (String × β)} {k : String} {v : β}
    (h : alookup l k = some v) : (k, v) ∈ l := by
  induction l with
  | nil => simp [alookup] at h
  | cons p ps ih =>
      by_cases hk : p.1 = k
      · simp [alookup, hk] at h
        subst hk
        subst h
        exact List.mem_cons_self _ _
      · simp [alookup, hk] at h
        exact List.mem_cons_of_mem _ (ih h)

theorem nodup_subset_length_le {α : Type} [DecidableEq α] {l u : List α}
    (h1 : l.Nodup) (h2 : l ⊆ u) : l.length ≤ u.length := by
  calc l.length = l.toFinset.card := (List.toFinset_card_of_nodup h1).symm
    _ ≤ u.toFinset.card := Finset.card_le_card (fun x hx => by
        simp only [List.mem_toFinset] at hx ⊢
        exact h2 hx)
    _ ≤ u.length := u.toFinset_card_le

theorem exceptMapM_mem {α β ε : Type} {f : α → Except ε β} {l : List α}
    {bs : List β} (h : exceptMapM f l = .ok bs) {b : β} (hb : b ∈ bs) :
    ∃ a ∈ l, f a = .ok b := by
  induction l generalizing bs with
  | nil =>
      simp [exceptMapM] at h
      subst h
      simp at hb
  | cons a as ih =>
      rw [exceptMapM] at h
      cases hfa : f a with
      | error e => simp [hfa] at h
      | ok b0 =>
          simp only [hfa] at h
          cases hrest : exceptMapM f as with
          | error e => simp [hrest] at h
          | ok bs0 =>
              simp [hrest] at h
              subst h
              rcases List.mem_cons.mp hb with hb1 | hb1
              · exact ⟨a, List.mem_cons_self _ _, by rw [hfa, hb1]⟩
              · obtain ⟨a0, ha0, hfa0⟩ := ih hrest hb1
                exact ⟨a0, List.mem_cons_of_mem _ ha0, hfa0⟩

/-- Position of the first occurrence of an element in a list. -/
def rankIn : List TaskId → TaskId → Nat
  | [], _ => 0
  | y :: ys, x => if y = x then 0 else rankIn ys x + 1

theorem rankIn_append_of_mem {l : List TaskId} {x : TaskId} (t : List TaskId)
    (h : x ∈ l) : rankIn (l ++ t) x = rankIn l x := by
  induction l with
  | nil => simp at h
  | cons y ys ih =>
      by_cases hy : y = x
      · simp [rankIn, hy]
      · rcases List.mem_cons.mp h with h1 | h1
        · exact absurd h1.symm hy
        · simp [rankIn, hy, ih h1]

theorem rankIn_lt_length {l : List TaskId} {x : TaskId} (h : x ∈ l) :
    rankIn l x < l.length := by
  induction l with
  | nil => simp at h
  | cons y ys ih =>
      by_cases hy : y = x
      · simp [rankIn, hy]
      · rcases List.mem_cons.mp h with h1 | h1
        · exact absurd h1.symm hy
        · simp only [rankIn, hy, if_false, List.length_cons]
          exact Nat.succ_lt_succ (ih h1)

theorem rankIn_append_self {l : List TaskId} {x : TaskId} (h : x ∉ l) :
    rankIn (l ++ [x]) x = l.length := by
  induction l with
  | nil => simp [rankIn]
  | cons y ys ih =>
      have hy : y ≠ x := fun he => h (he ▸ List.mem_cons_self _ _)
      have h2 := ih (fun hm => h (List.mem_cons_of_mem _ hm))
      simp only [List.cons_append, rankIn, hy, if_false, List.length_cons,
        List.append_eq] at h2 ⊢
      omega

/-- The target name one dependsOn entry names. -/
def entryTargetName (e : DepEntry) : String :=
  match e with
  | .targetName t => t
  | .depConfig d => d.target

theorem targetNamesOf_eq (tc : TargetConfiguration) :
    targetNamesOf tc = (tc.dependsOn.getD []).map entryTargetName := rfl

theorem resolveTarget_dependsOn {w : Workspace} {proj : Project} {t : String}
    {c : Option String} {tc : TargetConfiguration}
    (h : resolveTarget w proj t c = .ok tc) :
    tc.dependsOn = (mergedTarget w proj t).dependsOn := by
  cases c with
  | none =>
      cases hex : (mergedTarget w proj t).executor with
      | none => simp [resolveTarget, finishResolve, hex] at h
      | some ex =>
          simp [resolveTarget, finishResolve, hex] at h
          rw [← h]
  | some cname =>
      cases hcfg : alookup (mergedTarget w proj t).configurations cname with
      | none => simp [resolveTarget, hcfg] at h
      | some overlay =>
          cases hex : (mergedTarget w proj t).executor with
          | none => simp [resolveTarget, finishResolve, hcfg, hex] at h
          | some ex =>
              simp [resolveTarget, finishResolve, hcfg, hex] at h
              rw [← h]

theorem findProject_eq_some {w : Workspace} {pn : String} {p : Project}
    (h : findProject w pn = some p) : p ∈ w.graph.nodes ∧ p.name = pn := by
  refine ⟨List.mem_of_find?_eq_some h, ?_⟩
  have := List.find?_some h
  simpa using this

theorem depProjects_subset {w : Workspace} {pname : String} {p : Project}
    (h : p ∈ depProjects w pname) : p ∈ w.graph.nodes := by
  rw [depProjects, List.mem_filterMap] at h
  obtain ⟨ed, _, hfp⟩ := h
  exact (findProject_eq_some hfp).1

theorem mem_allTargetNames_of_defaults {w : Workspace} {k : String}
    {dtc : TargetConfiguration} {e : DepEntry}
    (hk : (k, dtc) ∈ w.targetDefaults) (he : e ∈ dtc.dependsOn.getD []) :
    entryTargetName e ∈ allTargetNames w := by
  have hmem : entryTargetName e ∈ targetNamesOf dtc := by
    rw [targetNamesOf_eq]
    exact List.mem_map_of_mem _ he
  have hB : entryTargetName e ∈
      (w.targetDefaults.map (fun p => targetNamesOf p.2)).flatten :=
    List.mem_flatten.mpr ⟨targetNamesOf dtc, List.mem_map_of_mem _ hk, hmem⟩
  rw [allTargetNames]
  exact List.mem_append.mpr (Or.inl (List.mem_append.mpr (Or.inl
    (List.mem_append.mpr (Or.inr hB)))))

theorem mem_allTargetNames_of_project {w : Workspace} {p : Project}
    {k : String} {ptc : TargetConfiguration} {e : DepEntry}
    (hp : p ∈ w.graph.nodes) (hk : (k, ptc) ∈ p.targets)
    (he : e ∈ ptc.dependsOn.getD []) :
    entryTargetName e ∈ allTargetNames w := by
  have hmem : entryTargetName e ∈ targetNamesOf ptc := by
    rw [targetNamesOf_eq]
    exact List.mem_map_of_mem _ he
  have hD : entryTargetName e ∈
      (w.graph.nodes.map (fun p0 =>
        (p0.targets.map (fun q => targetNamesOf q.2)).flatten)).flatten :=
    List.mem_flatten.mpr ⟨(p.targets.map (fun q => targetNamesOf q.2)).flatten,
      List.mem_map_of_mem _ hp,
      List.mem_flatten.mpr ⟨targetNamesOf ptc,
        List.mem_map_of_mem _ hk, hmem⟩⟩
  rw [allTargetNames]
  exact List.mem_append.mpr (Or.inr hD)

theorem defaultsBase_cases (w : Workspace) (proj : Project) (t : String) :
    defaultsBase w proj t = {} ∨
    ∃ k d, alookup w.targetDefaults k = some d ∧ defaultsBase w proj t = d := by
  rw [defaultsBase]
  cases h1 : alookup w.targetDefaults t with
  | some d => exact Or.inr ⟨t, d, h1, rfl⟩
  | none =>
      cases h2 : (alookup proj.targets t).bind (fun tc => tc.executor) with
      | none => exact Or.inl rfl
      | some ex =>
          cases h3 : alookup w.targetDefaults ex with
          | none =>
              left
              simp [h3]
          | some d =>
              right
              exact ⟨ex, d, h3, by simp [h3]⟩

theorem defaultsBase_entry_mem {w : Workspace} {proj : Project} {t : String}
    {e : DepEntry} (he : e ∈ (defaultsBase w proj t).dependsOn.getD []) :
    entryTargetName e ∈ allTargetNames w := by
  rcases defaultsBase_cases w proj t with h | ⟨k, d, hk, hd⟩
  · rw [h] at he
    simp at he
  · rw [hd] at he
    exact mem_allTargetNames_of_defaults (alookup_mem hk) he

theorem mergedTarget_entry_mem {w : Workspace} {proj : Project}
    (hproj : proj ∈ w.graph.nodes) {t : String} {e : DepEntry}
    (he : e ∈ (mergedTarget w proj t).dependsOn.getD []) :
    entryTargetName e ∈ allTargetNames w := by
  have hdo : (mergedTarget w proj t).dependsOn =
      ((projectTargetDecl proj t).dependsOn <|>
        (defaultsBase w proj t).dependsOn) := rfl
  cases hpd : (projectTargetDecl proj t).dependsOn with
  | some l =>
      rw [hdo, hpd] at he
      simp at he
      cases hat : alookup proj.targets t with
      | none =>
          rw [projectTargetDecl, hat] at hpd
          simp at hpd
      | some ptc =>
          rw [projectTargetDecl, hat] at hpd
          simp at hpd
          exact mem_allTargetNames_of_project hproj (alookup_mem hat)
            (by rw [hpd]; exact he)
  | none =>
      rw [hdo, hpd] at he
      simp at he
      exact defaultsBase_entry_mem he

theorem expandDepEntry_mem {w : Workspace} {proj : Project} {e : DepEntry}
    {l : List TaskId} (h : expandDepEntry w proj e = .ok l)
    {d : TaskId} (hd : d ∈ l) :
    d.configuration = none ∧ d.target = entryTargetName e ∧
      (d.project = proj.name ∨ ∃ p ∈ w.graph.nodes, d.project = p.name) := by
  cases e with
  | targetName t =>
      simp [expandDepEntry] at h
      subst h
      simp at hd
      subst hd
      exact ⟨rfl, rfl, Or.inl rfl⟩
  | depConfig d0 =>
      cases hdp : d0.projects with
      | self =>
          simp [expandDepEntry, hdp] at h
          subst h
          simp at hd
          subst hd
          exact ⟨rfl, by simp [entryTargetName], Or.inl rfl⟩
      | dependencies =>
          simp [expandDepEntry, hdp] at h
          subst h
          rw [List.mem_map] at hd
          obtain ⟨p, hp, hdef⟩ := hd
          subst hdef
          rw [List.mem_filter] at hp
          exact ⟨rfl, by simp [entryTargetName],
            Or.inr ⟨p, depProjects_subset hp.1, rfl⟩⟩
      | named ps =>
          simp only [expandDepEntry, hdp] at h
          obtain ⟨pn, hpn, hf⟩ := exceptMapM_mem h hd
          cases hfp : findProject w pn with
          | none => simp [hfp] at hf
          | some p =>
              simp only [hfp] at hf
              by_cases hdt : declaresTarget p d0.target
              · simp [hdt] at hf
                subst hf
                exact ⟨rfl, by simp [entryTargetName],
                  Or.inr ⟨p, (findProject_eq_some hfp).1,
                    ((findProject_eq_some hfp).2).symm⟩⟩
              · simp [hdt] at hf

theorem mem_taskUniverse_of {w : Workspace} {reqs : List TaskId} {d : TaskId}
    {p : Project} (hp : p ∈ w.graph.nodes) (hdp : d.project = p.name)
    (hdt : d.target ∈ allTargetNames w) (hdc : d.configuration = none) :
    d ∈ taskUniverse w reqs := by
  rw [taskUniverse]
  refine List.mem_append.mpr (Or.inr ?_)
  rw [List.mem_flatten]
  refine ⟨(allTargetNames w).map (fun t =>
    ({ project := p.name, target := t } : TaskId)),
    List.mem_map_of_mem _ hp, ?_⟩
  rw [List.mem_map]
  refine ⟨d.target, hdt, ?_⟩
  cases d with
  | mk a b c =>
      simp at hdp hdc
      simp [hdp, hdc]

theorem computeDepIds_mem_universe {w : Workspace} {id : TaskId}
    {ds : List TaskId} (reqs : List TaskId)
    (h : computeDepIds w id = .ok ds) {d : TaskId} (hd : d ∈ ds) :
    d ∈ taskUniverse w reqs := by
  rw [computeDepIds] at h
  cases hfp : findProject w id.project with
  | none => simp [hfp] at h
  | some proj =>
      simp only [hfp] at h
      have hproj : proj ∈ w.graph.nodes := (findProject_eq_some hfp).1
      cases hrt : resolveTarget w proj id.target id.configuration with
      | error e => simp [hrt] at h
      | ok tc =>
          simp only [hrt] at h
          cases hmm : exceptMapM (expandDepEntry w proj)
              (tc.dependsOn.getD []) with
          | error e => simp [hmm] at h
          | ok ls =>
              simp [hmm] at h
              subst h
              rw [List.mem_flatten] at hd
              obtain ⟨l, hl, hdl⟩ := hd
              obtain ⟨e, hel, hfe⟩ := exceptMapM_mem hmm hl
              obtain ⟨hc, ht, hpr⟩ := expandDepEntry_mem hfe hdl
              have hel2 : e ∈ (mergedTarget w proj id.target).dependsOn.getD [] := by
                rw [← resolveTarget_dependsOn hrt]
                exact hel
              have htn := mergedTarget_entry_mem hproj hel2
              rcases hpr with hpr | ⟨p, hp, hpr⟩
              · exact mem_taskUniverse_of hproj hpr (ht ▸ htn) hc
              · exact mem_taskUniverse_of hp hpr (ht ▸ htn) hc

/-- With fuel exceeding the number of universe tasks not yet on the stack,
expansion never runs out of fuel. -/
theorem expandGo_no_fuel_error (w : Workspace) (reqs : List TaskId) :
    ∀ (fuel : Nat) (stack : List TaskId) (parent : Option TaskId)
      (s : BuildState) (ds : List TaskId),
      stack.Nodup →
      (∀ x ∈ stack, x ∈ taskUniverse w reqs) →
      (∀ d ∈ ds, d ∈ taskUniverse w reqs) →
      (taskUniverse w reqs).length + 1 ≤ fuel + stack.length →
      expandGo w fuel stack parent s ds ≠ .error .outOfFuel := by
  intro fuel
  induction fuel with
  | zero =>
      intro stack parent s ds h1 h2 h3 h4
      cases ds with
      | nil => simp [expandGo]
      | cons d rest =>
          exfalso
          have hle := nodup_subset_length_le h1 (fun x hx => h2 x hx)
          omega
  | succ f ih =>
      intro stack parent s ds
      induction ds generalizing parent s with
      | nil =>
          intro h1 h2 h3 h4
          simp [expandGo]
      | cons d rest ihds =>
          intro h1 h2 h3 h4
          rw [expandGo]
          by_cases hmem : d ∈ s.order
          · rw [if_pos hmem]
            exact ihds parent (pushEdge s parent d) h1 h2
              (fun x hx => h3 x (List.mem_cons_of_mem _ hx)) h4
          · rw [if_neg hmem]
            by_cases hstk : d ∈ stack
            · rw [if_pos hstk]
              simp
            · rw [if_neg hstk]
              cases hcd : computeDepIds w d with
              | error e => simp
              | ok dds =>
                  have hsub : ∀ x ∈ dds, x ∈ taskUniverse w reqs :=
                    fun x hx => computeDepIds_mem_universe reqs hcd hx
                  have hrec := ih (d :: stack) (some d) s dds
                    (List.nodup_cons.mpr ⟨hstk, h1⟩)
                    (fun x hx => by
                      rcases List.mem_cons.mp hx with h | h
                      · exact h ▸ h3 d (List.mem_cons_self _ _)
                      · exact h2 x h)
                    hsub
                    (by simp only [List.length_cons] at h4 ⊢; omega)
                  cases hgo : expandGo w f (d :: stack) (some d) s dds with
                  | error e =>
                      simp only [hgo]
                      intro hcontra
                      apply hrec
                      rw [hgo]
                      injection hcontra with h
                      rw [h]
                  | ok s1 =>
                      simp only [hgo]
                      exact ihds parent _ h1 h2
                        (fun x hx => h3 x (List.mem_cons_of_mem _ hx)) h4

/-! ### Builder invariants: edge ordering and completeness -/

/-- Edge well-formedness during expansion: every edge points at an interned
task, and its source is either an interned task of strictly larger rank or
an in-progress task on the expansion stack. -/
def EdgeInv (stack : List TaskId) (s : BuildState) : Prop :=
  ∀ e ∈ s.edges, e.2 ∈ s.order ∧
    ((e.1 ∈ s.order ∧ rankIn s.order e.2 < rankIn s.order e.1) ∨
      (e.1 ∉ s.order ∧ e.1 ∈ stack))

/-- Every interned task has exactly the edges its dependsOn expansion
contributes. -/
def Complete (w : Workspace) (s : BuildState) : Prop :=
  ∀ a ∈ s.order, ∃ ds, computeDepIds w a = .ok ds ∧
    ∀ b, ((a, b) ∈ s.edges ↔ b ∈ ds)

/-- The combined invariant threaded through expansion. -/
def BuildPre (w : Workspace) (stack : List TaskId) (s : BuildState) : Prop :=
  EdgeInv stack s ∧ s.order.Nodup ∧ (∀ x ∈ stack, x ∉ s.order) ∧ Complete w s

/-- What one expansion call guarantees about its output state. -/
def ExpandPost (w : Workspace) (stack : List TaskId) (parent : Option TaskId)
    (s : BuildState) (ds : List TaskId) (s' : BuildState) : Prop :=
  (∃ t, s'.order = s.order ++ t) ∧
  (∀ e ∈ s.edges, e ∈ s'.edges) ∧
  (∀ d ∈ ds, d ∈ s'.order) ∧
  (∀ e ∈ s'.edges, e ∈ s.edges ∨ (parent = some e.1 ∧ e.2 ∈ ds) ∨
    (e.1 ∉ stack ∧ e.1 ∉ s.order)) ∧
  (∀ x ∈ s'.order, x ∈ s.order ∨ x ∉ stack) ∧
  (∀ d ∈ ds, ∀ p, parent = some p → (p, d) ∈ s'.edges) ∧
  BuildPre w stack s'

theorem pushEdge_order (s : BuildState) (parent : Option TaskId) (d : TaskId) :
    (pushEdge s parent d).order = s.order := by
  cases parent <;> rfl

theorem mem_pushEdge_edges {s : BuildState} {parent : Option TaskId}
    {d : TaskId} {e : TaskId × TaskId} :
    e ∈ (pushEdge s parent d).edges ↔
      e ∈ s.edges ∨ ∃ p, parent = some p ∧ e = (p, d) := by
  cases parent with
  | none => simp [pushEdge]
  | some p => simp [pushEdge]

theorem edgeInv_mono {stack stack' : List TaskId} {s : BuildState}
    (h : EdgeInv stack s) (hsub : ∀ x ∈ stack, x ∈ stack') :
    EdgeInv stack' s := by
  intro e he
  obtain ⟨h1, h2⟩ := h e he
  refine ⟨h1, ?_⟩
  rcases h2 with h2 | ⟨h2a, h2b⟩
  · exact Or.inl h2
  · exact Or.inr ⟨h2a, hsub _ h2b⟩

theorem buildPre_pushEdge {w : Workspace} {stack : List TaskId}
    {s : BuildState} {parent : Option TaskId} {d : TaskId}
    (hpre : BuildPre w stack s) (hd : d ∈ s.order)
    (hp : ∀ p, parent = some p → p ∈ stack) :
    BuildPre w stack (pushEdge s parent d) := by
  obtain ⟨hinv, hnd, hdisj, hcomp⟩ := hpre
  refine ⟨?_, ?_, ?_, ?_⟩
  · intro e he
    rw [mem_pushEdge_edges] at he
    rw [pushEdge_order]
    rcases he with he | ⟨p, hpar, heq⟩
    · exact hinv e he
    · subst heq
      exact ⟨hd, Or.inr ⟨hdisj p (hp p hpar), hp p hpar⟩⟩
  · rw [pushEdge_order]
    exact hnd
  · intro x hx
    rw [pushEdge_order]
    exact hdisj x hx
  · intro a ha
    rw [pushEdge_order] at ha
    obtain ⟨dsa, hda, hiff⟩ := hcomp a ha
    refine ⟨dsa, hda, fun b => ?_⟩
    rw [mem_pushEdge_edges]
    constructor
    · rintro (h | ⟨p, hpar, heq⟩)
      · exact (hiff b).mp h
      · exact absurd ha (by
          have : a = p := congrArg Prod.fst heq
          rw [this]
          exact hdisj p (hp p hpar))
    · intro hb
      exact Or.inl ((hiff b).mpr hb)

theorem buildPre_finishTask {w : Workspace} {stack : List TaskId}
    {s s1 : BuildState} {parent : Option TaskId} {d : TaskId}
    {dds : List TaskId}
    (hmem : d ∉ s.order) (hstk : d ∉ stack)
    (hcd : computeDepIds w d = .ok dds)
    (hpar : ∀ p, parent = some p → p ∈ stack)
    (hpre : BuildPre w stack s)
    (hpost : ExpandPost w (d :: stack) (some d) s dds s1) :
    BuildPre w stack
      (pushEdge { s1 with order := s1.order ++ [d] } parent d) ∧
    d ∉ s1.order ∧
    (∀ b, ((d, b) ∈ s1.edges ↔ b ∈ dds)) := by
  obtain ⟨⟨t1, ht1⟩, hmonoE, hdds_in, hchar, hnewstack, hparedges, hpre1⟩ :=
    hpost
  obtain ⟨hinv1, hnd1, hdisj1, hcomp1⟩ := hpre1
  obtain ⟨hinv0, hnd0, hdisj0, hcomp0⟩ := hpre
  have hd_not1 : d ∉ s1.order := by
    intro hd1
    rcases hnewstack d hd1 with h | h
    · exact hmem h
    · exact h (List.mem_cons_self _ _)
  have hdchar : ∀ b, ((d, b) ∈ s1.edges ↔ b ∈ dds) := by
    intro b
    constructor
    · intro hb
      rcases hchar (d, b) hb with h | ⟨_, h2⟩ | ⟨h1, _⟩
      · rcases (hinv0 (d, b) h).2 with ⟨h2, _⟩ | ⟨_, h3⟩
        · exact absurd h2 hmem
        · exact absurd h3 hstk
      · exact h2
      · exact absurd (List.mem_cons_self d stack) h1
    · intro hb
      exact hparedges b hb d rfl
  have horder2 :
      (pushEdge { s1 with order := s1.order ++ [d] } parent d).order =
        s1.order ++ [d] := by
    rw [pushEdge_order]
  have hedges2 : ∀ e : TaskId × TaskId,
      (e ∈ (pushEdge { s1 with order := s1.order ++ [d] } parent d).edges ↔
        e ∈ s1.edges ∨ ∃ p, parent = some p ∧ e = (p, d)) := by
    intro e
    exact mem_pushEdge_edges
  have hdisj2 : ∀ x ∈ stack, x ∉ s1.order ++ [d] := by
    intro x hx hmem2
    rcases List.mem_append.mp hmem2 with h | h
    · exact hdisj1 x (List.mem_cons_of_mem _ hx) h
    · simp at h
      exact hstk (h ▸ hx)
  refine ⟨⟨?_, ?_, ?_, ?_⟩, hd_not1, hdchar⟩
  · -- EdgeInv
    intro e he
    rw [horder2]
    rcases (hedges2 e).mp he with he1 | ⟨p, hpar2, heq⟩
    · obtain ⟨h1, h2⟩ := hinv1 e he1
      refine ⟨List.mem_append_left _ h1, ?_⟩
      rcases h2 with ⟨h2a, h2b⟩ | ⟨h2a, h2b⟩
      · refine Or.inl ⟨List.mem_append_left _ h2a, ?_⟩
        rw [rankIn_append_of_mem _ h1, rankIn_append_of_mem _ h2a]
        exact h2b
      · rcases List.mem_cons.mp h2b with hEd | hEs
        · refine Or.inl ⟨?_, ?_⟩
          · rw [hEd]
            exact List.mem_append_right _ (by simp)
          · rw [hEd, rankIn_append_self hd_not1, rankIn_append_of_mem _ h1]
            exact rankIn_lt_length h1
        · refine Or.inr ⟨?_, hEs⟩
          intro hc
          rcases List.mem_append.mp hc with hc | hc
          · exact h2a hc
          · simp at hc
            exact hstk (hc ▸ hEs)
    · subst heq
      refine ⟨List.mem_append_right _ (by simp), Or.inr ⟨?_, hpar p hpar2⟩⟩
      exact hdisj2 p (hpar p hpar2)
  · -- Nodup
    rw [horder2]
    refine List.nodup_append.mpr ⟨hnd1, List.nodup_singleton d, ?_⟩
    intro x hx hxd
    simp at hxd
    exact hd_not1 (hxd ▸ hx)
  · -- stack disjoint
    intro x hx
    rw [horder2]
    exact hdisj2 x hx
  · -- Complete
    intro a ha
    rw [horder2] at ha
    rcases List.mem_append.mp ha with ha1 | had
    · obtain ⟨dsa, hda, hiff⟩ := hcomp1 a ha1
      refine ⟨dsa, hda, fun b => ?_⟩
      constructor
      · intro hb
        rcases (hedges2 (a, b)).mp hb with hb1 | ⟨p, hpar2, heq⟩
        · exact (hiff b).mp hb1
        · have hap : a = p := congrArg Prod.fst heq
          exact absurd ha1
            (hap ▸ hdisj1 p (List.mem_cons_of_mem _ (hpar p hpar2)))
      · intro hb
        exact (hedges2 (a, b)).mpr (Or.inl ((hiff b).mpr hb))
    · have had2 : a = d := by simpa using had
      subst had2
      refine ⟨dds, hcd, fun b => ?_⟩
      constructor
      · intro hb
        rcases (hedges2 (a, b)).mp hb with hb1 | ⟨p, hpar2, heq⟩
        · exact (hdchar b).mp hb1
        · have hap : a = p := congrArg Prod.fst heq
          exact absurd (hpar p hpar2) (hap ▸ hstk)
      · intro hb
        exact (hedges2 (a, b)).mpr (Or.inl ((hdchar b).mpr hb))

theorem expandGo_spec (w : Workspace) :
    ∀ (fuel : Nat) (stack : List TaskId) (parent : Option TaskId)
      (s : BuildState) (ds : List TaskId) (s' : BuildState),
      expandGo w fuel stack parent s ds = .ok s' →
      (∀ p, parent = some p → p ∈ stack) →
      BuildPre w stack s →
      ExpandPost w stack parent s ds s' := by
  intro fuel
  induction fuel with
  | zero =>
      intro stack parent s ds s' h hpar hpre
      cases ds with
      | nil =>
          simp only [expandGo] at h
          cases h
          exact ⟨⟨[], by simp⟩, fun e he => he, by simp,
            fun e he => Or.inl he, fun x hx => Or.inl hx, by simp, hpre⟩
      | cons d rest => simp [expandGo] at h
  | succ f ih =>
      intro stack parent s ds
      induction ds generalizing parent s with
      | nil =>
          intro s' h hpar hpre
          simp only [expandGo] at h
          cases h
          exact ⟨⟨[], by simp⟩, fun e he => he, by simp,
            fun e he => Or.inl he, fun x hx => Or.inl hx, by simp, hpre⟩
      | cons d rest ihds =>
          intro s' h hpar hpre
          rw [expandGo] at h
          by_cases hmem : d ∈ s.order
          · rw [if_pos hmem] at h
            have hpre2 := buildPre_pushEdge hpre hmem hpar
            obtain ⟨⟨t2, ht2⟩, hE2, hD2, hC2, hS2, hP2, hpreF⟩ :=
              ihds parent (pushEdge s parent d) s' h hpar hpre2
            refine ⟨?_, ?_, ?_, ?_, ?_, ?_, hpreF⟩
            · exact ⟨t2, by rw [ht2, pushEdge_order]⟩
            · intro e he
              exact hE2 e (mem_pushEdge_edges.mpr (Or.inl he))
            · intro d0 hd0
              rcases List.mem_cons.mp hd0 with h1 | h1
              · subst h1
                rw [ht2, pushEdge_order]
                exact List.mem_append_left _ hmem
              · exact hD2 d0 h1
            · intro e he
              rcases hC2 e he with h1 | ⟨h1, h2⟩ | ⟨h1, h2⟩
              · rcases mem_pushEdge_edges.mp h1 with h2 | ⟨p, hp2, heq⟩
                · exact Or.inl h2
                · refine Or.inr (Or.inl ⟨?_, ?_⟩)
                  · rw [hp2, heq]
                  · rw [heq]
                    exact List.mem_cons_self _ _
              · exact Or.inr (Or.inl ⟨h1, List.mem_cons_of_mem _ h2⟩)
              · rw [pushEdge_order] at h2
                exact Or.inr (Or.inr ⟨h1, h2⟩)
            · intro x hx
              rcases hS2 x hx with h1 | h1
              · rw [pushEdge_order] at h1
                exact Or.inl h1
              · exact Or.inr h1
            · intro d0 hd0 p hp
              rcases List.mem_cons.mp hd0 with h1 | h1
              · subst h1
                exact hE2 _ (mem_pushEdge_edges.mpr (Or.inr ⟨p, hp, rfl⟩))
              · exact hP2 d0 h1 p hp
          · rw [if_neg hmem] at h
            by_cases hstk : d ∈ stack
            · rw [if_pos hstk] at h
              simp at h
            · rw [if_neg hstk] at h
              cases hcd : computeDepIds w d with
              | error e =>
                  simp only [hcd] at h
                  cases h
              | ok dds =>
                  simp only [hcd] at h
                  cases hgo : expandGo w f (d :: stack) (some d) s dds with
                  | error e =>
                      simp only [hgo] at h
                      cases h
                  | ok s1 =>
                      simp only [hgo] at h
                      have hpost1 := ih (d :: stack) (some d) s dds s1 hgo
                        (fun p hp => by
                          cases hp
                          exact List.mem_cons_self _ _)
                        (by
                          obtain ⟨hinv, hnd, hdisj, hcomp⟩ := hpre
                          refine ⟨edgeInv_mono hinv
                            (fun x hx => List.mem_cons_of_mem _ hx), hnd,
                            ?_, hcomp⟩
                          intro x hx
                          rcases List.mem_cons.mp hx with h1 | h1
                          · exact h1 ▸ hmem
                          · exact hdisj x h1)
                      obtain ⟨hpre2, hd_not1, hdchar⟩ :=
                        buildPre_finishTask hmem hstk hcd hpar hpre hpost1
                      obtain ⟨⟨t1, ht1⟩, hE1, hD1, hC1, hS1, hP1, hpre1⟩ :=
                        hpost1
                      obtain ⟨⟨t2, ht2⟩, hE2, hD2, hC2, hS2, hP2, hpreF⟩ :=
                        ihds parent _ s' h hpar hpre2
                      have horder2 :
                          (pushEdge { s1 with order := s1.order ++ [d] }
                            parent d).order = s1.order ++ [d] :=
                        pushEdge_order _ _ _
                      refine ⟨?_, ?_, ?_, ?_, ?_, ?_, hpreF⟩
                      · refine ⟨t1 ++ [d] ++ t2, ?_⟩
                        rw [ht2, horder2, ht1]
                        simp [List.append_assoc]
                      · intro e he
                        exact hE2 e (mem_pushEdge_edges.mpr
                          (Or.inl (hE1 e he)))
                      · intro d0 hd0
                        rcases List.mem_cons.mp hd0 with h1 | h1
                        · subst h1
                          rw [ht2, horder2]
                          exact List.mem_append_left _
                            (List.mem_append_right _ (by simp))
                        · exact hD2 d0 h1
                      · intro e he
                        rcases hC2 e he with h1 | ⟨h1, h2⟩ | ⟨h1, h2⟩
                        · rcases mem_pushEdge_edges.mp h1 with
                            h2 | ⟨p, hp2, heq⟩
                          · rcases hC1 e h2 with h3 | ⟨h3, h4⟩ | ⟨h3, h4⟩
                            · exact Or.inl h3
                            · have he1 : e.1 = d := by
                                injection h3 with h3
                                exact h3.symm
                              exact Or.inr (Or.inr
                                ⟨he1 ▸ hstk, he1 ▸ hmem⟩)
                            · refine Or.inr (Or.inr ⟨?_, h4⟩)
                              intro hc
                              exact h3 (List.mem_cons_of_mem _ hc)
                          · refine Or.inr (Or.inl ⟨?_, ?_⟩)
                            · rw [hp2, heq]
                            · rw [heq]
                              exact List.mem_cons_self _ _
                        · exact Or.inr (Or.inl
                            ⟨h1, List.mem_cons_of_mem _ h2⟩)
                        · refine Or.inr (Or.inr ⟨h1, ?_⟩)
                          intro hc
                          apply h2
                          rw [horder2, ht1]
                          exact List.mem_append_left _
                            (List.mem_append_left _ hc)
                      · intro x hx
                        rcases hS2 x hx with h1 | h1
                        · rw [horder2] at h1
                          rcases List.mem_append.mp h1 with h2 | h2
                          · rcases hS1 x h2 with h3 | h3
                            · exact Or.inl h3
                            · exact Or.inr
                                (fun hc => h3 (List.mem_cons_of_mem _ hc))
                          · have hxd : x = d := by simpa using h2
                            exact Or.inr (hxd ▸ hstk)
                        · exact Or.inr h1
                      · intro d0 hd0 p hp
                        rcases List.mem_cons.mp hd0 with h1 | h1
                        · subst h1
                          exact hE2 _ (mem_pushEdge_edges.mpr
                            (Or.inr ⟨p, hp, rfl⟩))
                        · exact hP2 d0 h1 p hp

/-- One task id reaches another through dependency edges. -/
def TaskGraph.Reaches (g : TaskGraph) (a b : TaskId) : Prop :=
  Relation.TransGen (fun x y => (x, y) ∈ g.edges) a b

/-- No task id reaches itself through dependency edges. -/
def TaskGraph.Acyclic (g : TaskGraph) : Prop :=
  ∀ a, ¬ g.Reaches a a

/-- Everything a successful build guarantees: interned nodes are unique,
every edge descends strictly in the interning rank, every node's edges are
exactly its dependency expansion, every request is interned, and the
requests become the roots. -/
theorem buildTaskGraph_ok_spec {w : Workspace} {reqs : List TaskId}
    {g : TaskGraph} (h : buildTaskGraph w reqs = .ok g) :
    g.nodes.Nodup ∧
    (∀ e ∈ g.edges, e.1 ∈ g.nodes ∧ e.2 ∈ g.nodes ∧
      rankIn g.nodes e.2 < rankIn g.nodes e.1) ∧
    (∀ a ∈ g.nodes, ∃ ds, computeDepIds w a = .ok ds ∧
      ∀ b, ((a, b) ∈ g.edges ↔ b ∈ ds)) ∧
    (∀ r ∈ reqs, r ∈ g.nodes) ∧
    g.roots = reqs := by
  rw [buildTaskGraph] at h
  cases hgo : expandGo w ((taskUniverse w reqs).length + 1) [] none {} reqs with
  | error e =>
      rw [hgo] at h
      cases h
  | ok s =>
      rw [hgo] at h
      cases h
      have hpost := expandGo_spec w _ [] none {} reqs s hgo
        (fun p hp => nomatch hp)
        ⟨fun e he => absurd he (List.not_mem_nil e),
          List.nodup_nil,
          fun x hx => absurd hx (List.not_mem_nil x),
          fun a ha => absurd ha (List.not_mem_nil a)⟩
      obtain ⟨_, _, hD, _, _, _, ⟨hinv, hnd, _, hcomp⟩⟩ := hpost
      refine ⟨hnd, ?_, hcomp, hD, rfl⟩
      intro e he
      obtain ⟨h2, h3⟩ := hinv e he
      rcases h3 with ⟨h3a, h3b⟩ | ⟨_, h3b⟩
      · exact ⟨h3a, h2, h3b⟩
      · exact absurd h3b (List.not_mem_nil _)

/-- C1: for every workspace and request list, the task graph builder is a
total function that never exhausts its recursion fuel, and any graph it
returns contains no cycle; cyclic dependsOn chains are cut off by the
in-progress stack check and surface as CyclicTaskDependency instead.
This holds for every project graph, cyclic ones included. -/
theorem claim1_buildTaskGraph_terminates_acyclic :
    ∀ (w : Workspace) (requests : List TaskId),
      buildTaskGraph w requests ≠ .error .outOfFuel ∧
      (∀ g, buildTaskGraph w requests = .ok g → TaskGraph.Acyclic g) := by
  intro w reqs
  constructor
  · have hne := expandGo_no_fuel_error w reqs
      ((taskUniverse w reqs).length + 1) [] none {} reqs
      List.nodup_nil
      (fun x hx => absurd hx (List.not_mem_nil x))
      (fun d hd => by
        rw [taskUniverse]
        exact List.mem_append_left _ hd)
      (by simp)
    rw [buildTaskGraph]
    cases hgo : expandGo w ((taskUniverse w reqs).length + 1) [] none {} reqs with
    | error e =>
        intro hcontra
        apply hne
        rw [hgo]
        injection hcontra with h
        rw [h]
    | ok s => simp
  · intro g hg
    obtain ⟨_, hedge, _, _, _⟩ := buildTaskGraph_ok_spec hg
    intro a hreach
    have hmono : ∀ x y, TaskGraph.Reaches g x y →
        rankIn g.nodes y < rankIn g.nodes x := by
      intro x y hr
      induction hr with
      | single hxy => exact (hedge _ hxy).2.2
      | tail _ hxy ih => exact Nat.lt_trans (hedge _ hxy).2.2 ih
    exact absurd (hmono a a hreach) (Nat.lt_irrefl _)

/-- C3: any two expansion paths that reach the same (project, target,
configuration) triple share one interned task node — the node list has no
duplicates and every request is interned — and the dependency edges
attached to a node are exactly (so, for several contributing paths, the
union of) the edges its dependency expansion contributes. -/
theorem claim3_task_interning :
    ∀ (w : Workspace) (requests : List TaskId) (g : TaskGraph),
      buildTaskGraph w requests = .ok g →
      g.nodes.Nodup ∧
      (∀ r ∈ requests, r ∈ g.nodes) ∧
      (∀ a ∈ g.nodes, ∃ ds, computeDepIds w a = .ok ds ∧
        ∀ b, ((a, b) ∈ g.edges ↔ b ∈ ds)) := by
  intro w reqs g hg
  obtain ⟨hnd, _, hcomp, hreq, _⟩ := buildTaskGraph_ok_spec hg
  exact ⟨hnd, hreq, hcomp⟩

/-- A concrete dependency project that declares build. -/
def exLibProject : Project :=
  { name := "lib", targets := [("build", { executor := some "tsc" })] }

/-- A concrete dependency project that does not declare build. -/
def exUtilProject : Project :=
  { name := "util", targets := [("lint", { executor := some "lint" })] }

/-- A concrete root project whose build depends on the build target of all
its dependency projects. -/
def exMainProject : Project :=
  { name := "main",
    targets := [("build",
      { executor := some "tsc",
        dependsOn := some [.depConfig
          { projects := .dependencies, target := "build" }] })] }

/-- A concrete workspace in which main depends on lib (declares build) and
util (does not). -/
def exDepWorkspace : Workspace :=
  { graph := { nodes := [exMainProject, exLibProject, exUtilProject],
               dependencies := [
                 { source := "main", target := "lib", kind := .static },
                 { source := "main", target := "util", kind := .static }] } }

theorem exDep_build_eval :
    buildTaskGraph exDepWorkspace [⟨"main", "build", none⟩] = .ok
      { nodes := [⟨"lib", "build", none⟩, ⟨"main", "build", none⟩],
        edges := [(⟨"main", "build", none⟩, ⟨"lib", "build", none⟩)],
        roots := [⟨"main", "build", none⟩] } := by
  simp [buildTaskGraph, expandGo, computeDepIds, expandDepEntry,
    resolveTarget, mergedTarget, defaultsBase, projectTargetDecl,
    mergeTargetConfiguration, mergeBag, overrideWith, mergeConfigBags,
    finishResolve, interpolateBag, interpString, alookup, findProject,
    depProjects, declaresTarget, exceptMapM, pushEdge, taskUniverse,
    allTargetNames, targetNamesOf, exDepWorkspace, exMainProject,
    exLibProject, exUtilProject, List.find?, List.filterMap, List.filter,
    List.flatten]

theorem exceptMapM_error {α β ε : Type} {f : α → Except ε β} {l : List α}
    {e : ε} (h : exceptMapM f l = .error e) : ∃ a ∈ l, f a = .error e := by
  induction l with
  | nil => simp [exceptMapM] at h
  | cons a as ih =>
      rw [exceptMapM] at h
      cases hfa : f a with
      | error e0 =>
          simp [hfa] at h
          exact ⟨a, List.mem_cons_self _ _, by rw [hfa, h]⟩
      | ok b =>
          simp only [hfa] at h
          cases hrest : exceptMapM f as with
          | error e0 =>
              simp [hrest] at h
              subst h
              obtain ⟨a0, ha0, hfa0⟩ := ih hrest
              exact ⟨a0, List.mem_cons_of_mem _ ha0, hfa0⟩
          | ok bs => simp [hrest] at h

/-- C5: expanding a dependencies (caret) dependsOn entry never raises
MissingDependencyTarget — it contributes exactly the dependency projects
that declare the target, silently skipping the rest; the error arises only
from an explicit project-list entry naming a project that lacks the
target; and in the concrete workspace where main depends on lib (declares
build) and util (does not), requesting build for main yields exactly one
dependency edge, from main's build to lib's build. -/
theorem claim5_caret_expansion_skips :
    (∀ (w : Workspace) (proj : Project) (t : String),
      ∃ l, expandDepEntry w proj
          (.depConfig { projects := .dependencies, target := t }) = .ok l ∧
        ∀ d ∈ l, d.target = t ∧
          ∃ p ∈ depProjects w proj.name,
            declaresTarget p t = true ∧ d.project = p.name) ∧
    (∀ (w : Workspace) (proj : Project) (e : DepEntry) (pn tn : String),
      expandDepEntry w proj e = .error (.missingDependencyTarget pn tn) →
      ∃ d, e = .depConfig d ∧
        (∃ ps, d.projects = .named ps ∧ pn ∈ ps) ∧ d.target = tn ∧
        (∀ p, findProject w pn = some p → declaresTarget p tn = false)) ∧
    (buildTaskGraph exDepWorkspace [⟨"main", "build", none⟩] = .ok
      { nodes := [⟨"lib", "build", none⟩, ⟨"main", "build", none⟩],
        edges := [(⟨"main", "build", none⟩, ⟨"lib", "build", none⟩)],
        roots := [⟨"main", "build", none⟩] }) := by
  refine ⟨?_, ?_, exDep_build_eval⟩
  · intro w proj t
    refine ⟨_, rfl, ?_⟩
    intro d hd
    rw [List.mem_map] at hd
    obtain ⟨p, hp, hdef⟩ := hd
    subst hdef
    rw [List.mem_filter] at hp
    exact ⟨rfl, p, hp.1, hp.2, rfl⟩
  · intro w proj e pn tn h
    cases e with
    | targetName t => simp [expandDepEntry] at h
    | depConfig d0 =>
        cases hdp : d0.projects with
        | self => simp [expandDepEntry, hdp] at h
        | dependencies => simp [expandDepEntry, hdp] at h
        | named ps =>
            simp only [expandDepEntry, hdp] at h
            obtain ⟨a, ha, hfa⟩ := exceptMapM_error h
            cases hfp : findProject w a with
            | some p =>
                by_cases hdt : declaresTarget p d0.target
                · simp [hfp, hdt] at hfa
                · simp [hfp, hdt] at hfa
                  obtain ⟨h1, h2⟩ := hfa
                  subst h1
                  subst h2
                  refine ⟨d0, rfl, ⟨ps, hdp, ha⟩, rfl, ?_⟩
                  intro p' hp'
                  rw [hfp] at hp'
                  cases hp'
                  simpa using hdt
            | none =>
                simp [hfp] at hfa
                obtain ⟨h1, h2⟩ := hfa
                subst h1
                subst h2
                refine ⟨d0, rfl, ⟨ps, hdp, ha⟩, rfl, ?_⟩
                intro p' hp'
                rw [hfp] at hp'
                cases hp'

/-- Witness for C5 at a concrete erroring input: an explicit entry naming
util, which lacks build, is the only source of MissingDependencyTarget. -/
theorem claim5_witness :
    ∃ d, (DepEntry.depConfig
        { projects := .named ["util"], target := "build" }) = .depConfig d ∧
      (∃ ps, d.projects = .named ps ∧ "util" ∈ ps) ∧ d.target = "build" ∧
      (∀ p, findProject exDepWorkspace "util" = some p →
        declaresTarget p "build" = false) :=
  claim5_caret_expansion_skips.2.1 exDepWorkspace exMainProject
    (.depConfig { projects := .named ["util"], target := "build" })
    "util" "build" rfl

/-- Witness for C1 at the concrete workspace: the build returns and the
returned graph is acyclic. -/
theorem claim1_witness :
    buildTaskGraph exDepWorkspace [⟨"main", "build", none⟩] ≠
      .error .outOfFuel ∧
    TaskGraph.Acyclic
      { nodes := [⟨"lib", "build", none⟩, ⟨"main", "build", none⟩],
        edges := [(⟨"main", "build", none⟩, ⟨"lib", "build", none⟩)],
        roots := [⟨"main", "build", none⟩] } :=
  ⟨(claim1_buildTaskGraph_terminates_acyclic exDepWorkspace
      [⟨"main", "build", none⟩]).1,
    (claim1_buildTaskGraph_terminates_acyclic exDepWorkspace
      [⟨"main", "build", none⟩]).2 _ exDep_build_eval⟩

/-- Witness for C3 at the concrete workspace: the interned node list has
no duplicate task. -/
theorem claim3_witness :
    ({ nodes := [⟨"lib", "build", none⟩, ⟨"main", "build", none⟩],
       edges := [(⟨"main", "build", none⟩, ⟨"lib", "build", none⟩)],
       roots := [⟨"main", "build", none⟩] } : TaskGraph).nodes.Nodup ∧
    (∀ r ∈ ([⟨"main", "build", none⟩] : List TaskId),
      r ∈ ({ nodes := [⟨"lib", "build", none⟩, ⟨"main", "build", none⟩],
             edges := [(⟨"main", "build", none⟩, ⟨"lib", "build", none⟩)],
             roots := [⟨"main", "build", none⟩] } : TaskGraph).nodes) :=
  ⟨(claim3_task_interning exDepWorkspace [⟨"main", "build", none⟩] _
      exDep_build_eval).1,
    (claim3_task_interning exDepWorkspace [⟨"main", "build", none⟩] _
      exDep_build_eval).2.1⟩

/-! ### Task scheduler (modelled from the spec) -/

/-- Modelled from the spec: the scheduler's view of a task graph — task
nodes, dependency edges (dependent to dependency), requested roots, and
the set of continuous tasks. -/
structure SchedGraph where
  tasks : List TaskId
  edges : List (TaskId × TaskId)
  roots : List TaskId
  continuousTasks : List TaskId

/-- Modelled from the spec: the per-task state machine
pending -> ready -> running -> succeeded / failed / skipped. -/
inductive TState where
  | pending : TState
  | ready : TState
  | running : TState
  | succeeded : TState
  | failed : TState
  | skipped : TState
deriving DecidableEq

/-- A scheduling state assigns every task id a task state. -/
abbrev SchedState := TaskId → TState

/-- The initial scheduling state: every task is pending. -/
def initState : SchedState := fun _ => .pending

/-- Update the state of one task. -/
def updateState (st : SchedState) (t : TaskId) (v : TState) : SchedState :=
  fun x => if x = t then v else st x

/-- Modelled from the spec: one dependency is satisfied — a continuous
dependency must be at least running (it never terminates normally), a
non-continuous dependency must have succeeded. -/
def DepSatisfied (g : SchedGraph) (st : SchedState) (d : TaskId) : Prop :=
  if d ∈ g.continuousTasks then st d = .running ∨ st d = .succeeded
  else st d = .succeeded

instance (g : SchedGraph) (st : SchedState) (d : TaskId) :
    Decidable (DepSatisfied g st d) := by
  rw [DepSatisfied]
  infer_instance

/-- Modelled from the spec: a task becomes ready when every non-continuous
dependency has succeeded and every continuous dependency is at least
running. -/
def ReadyCond (g : SchedGraph) (st : SchedState) (t : TaskId) : Prop :=
  ∀ d, (t, d) ∈ g.edges → DepSatisfied g st d

/-- Modelled from the spec: a task is skipped when some non-continuous
dependency ended failed, or was itself skipped (the transitive
propagation). -/
def SkipCond (g : SchedGraph) (st : SchedState) (t : TaskId) : Prop :=
  ∃ d, (t, d) ∈ g.edges ∧ d ∉ g.continuousTasks ∧
    (st d = .failed ∨ st d = .skipped)

/-- Modelled from the spec: one atomic scheduler transition.  A pending
graph task with its dependencies satisfied becomes ready; a ready task
starts running; a running non-continuous task finishes with the success
its executor reports (continuous tasks never finish normally); a pending
graph task with a failed or skipped non-continuous dependency is
skipped. -/
inductive Step (g : SchedGraph) (oracle : TaskId → Bool) :
    SchedState → SchedState → Prop where
  | toReady (st : SchedState) (t : TaskId) (h1 : st t = .pending)
      (h2 : t ∈ g.tasks) (h3 : ReadyCond g st t) :
      Step g oracle st (updateState st t .ready)
  | toRunning (st : SchedState) (t : TaskId) (h1 : st t = .ready) :
      Step g oracle st (updateState st t .running)
  | finish (st : SchedState) (t : TaskId) (h1 : st t = .running)
      (h2 : t ∉ g.continuousTasks) :
      Step g oracle st
        (updateState st t (if oracle t then .succeeded else .failed))
  | toSkipped (st : SchedState) (t : TaskId) (h1 : st t = .pending)
      (h2 : t ∈ g.tasks) (h3 : SkipCond g st t) :
      Step g oracle st (updateState st t .skipped)

/-- A state the scheduler can reach from the all-pending start. -/
def Reachable (g : SchedGraph) (oracle : TaskId → Bool)
    (st : SchedState) : Prop :=
  Relation.ReflTransGen (Step g oracle) initState st

/-- A state in which no transition applies any more (the run is over,
up to continuous tasks left running). -/
def Quiescent (g : SchedGraph) (oracle : TaskId → Bool)
    (st : SchedState) : Prop :=
  ∀ st', ¬ Step g oracle st st'

/-- Modelled from the spec: overall run success — no task ended failed and
no requested root task was skipped. -/
def overallSuccess (g : SchedGraph) (st : SchedState) : Bool :=
  g.tasks.all (fun t => decide (st t ≠ .failed)) &&
  g.roots.all (fun r => decide (st r ≠ .skipped))

/-- The inductive invariant of the scheduler: a task at or past ready has
its dependency condition satisfied, a skipped task has a failed or skipped
non-continuous dependency, and a succeeded task is a non-continuous task
whose executor reported success. -/
def SchedInv (g : SchedGraph) (oracle : TaskId → Bool)
    (st : SchedState) : Prop :=
  (∀ t, (st t = .ready ∨ st t = .running ∨ st t = .succeeded ∨
      st t = .failed) → ReadyCond g st t) ∧
  (∀ t, st t = .skipped → SkipCond g st t) ∧
  (∀ t, st t = .succeeded → oracle t = true ∧ t ∉ g.continuousTasks)

theorem updateState_ne {st : SchedState} {t x : TaskId} {v : TState}
    (h : x ≠ t) : updateState st t v x = st x := by
  simp [updateState, h]

theorem updateState_self (st : SchedState) (t : TaskId) (v : TState) :
    updateState st t v t = v := by
  simp [updateState]

theorem depSatisfied_step {g : SchedGraph} {o : TaskId → Bool}
    {st st' : SchedState} {d : TaskId} (hstep : Step g o st st')
    (h : DepSatisfied g st d) : DepSatisfied g st' d := by
  cases hstep with
  | toReady t h1 h2 h3 =>
      by_cases hx : d = t
      · subst hx
        rw [DepSatisfied] at h
        split at h <;> simp_all
      · rw [DepSatisfied] at h ⊢
        rw [updateState_ne hx]
        exact h
  | toRunning t h1 =>
      by_cases hx : d = t
      · subst hx
        rw [DepSatisfied] at h
        split at h <;> simp_all
      · rw [DepSatisfied] at h ⊢
        rw [updateState_ne hx]
        exact h
  | finish t h1 h2 =>
      by_cases hx : d = t
      · subst hx
        rw [DepSatisfied] at h
        split at h
        · simp_all
        · simp_all
      · rw [DepSatisfied] at h ⊢
        rw [updateState_ne hx]
        exact h
  | toSkipped t h1 h2 h3 =>
      by_cases hx : d = t
      · subst hx
        rw [DepSatisfied] at h
        split at h <;> simp_all
      · rw [DepSatisfied] at h ⊢
        rw [updateState_ne hx]
        exact h

theorem readyCond_step {g : SchedGraph} {o : TaskId → Bool}
    {st st' : SchedState} {t : TaskId} (hstep : Step g o st st')
    (h : ReadyCond g st t) : ReadyCond g st' t := by
  intro d hd
  exact depSatisfied_step hstep (h d hd)

theorem terminal_bad_step {g : SchedGraph} {o : TaskId → Bool}
    {st st' : SchedState} {d : TaskId} (hstep : Step g o st st')
    (h : st d = .failed ∨ st d = .skipped) :
    st' d = .failed ∨ st' d = .skipped := by
  cases hstep with
  | toReady t h1 h2 h3 =>
      by_cases hx : d = t
      · subst hx
        simp_all
      · rw [updateState_ne hx]
        exact h
  | toRunning t h1 =>
      by_cases hx : d = t
      · subst hx
        simp_all
      · rw [updateState_ne hx]
        exact h
  | finish t h1 h2 =>
      by_cases hx : d = t
      · subst hx
        simp_all
      · rw [updateState_ne hx]
        exact h
  | toSkipped t h1 h2 h3 =>
      by_cases hx : d = t
      · subst hx
        simp_all
      · rw [updateState_ne hx]
        exact h

theorem skipCond_step {g : SchedGraph} {o : TaskId → Bool}
    {st st' : SchedState} {t : TaskId} (hstep : Step g o st st')
    (h : SkipCond g st t) : SkipCond g st' t := by
  obtain ⟨d, hd, hnc, hbad⟩ := h
  exact ⟨d, hd, hnc, terminal_bad_step hstep hbad⟩

theorem step_cases {g : SchedGraph} {o : TaskId → Bool}
    {st st' : SchedState} (hstep : Step g o st st') :
    ∃ u v, st' = updateState st u v ∧
      ((v = .ready ∧ st u = .pending ∧ u ∈ g.tasks ∧ ReadyCond g st u) ∨
       (v = .running ∧ st u = .ready) ∨
       ((v = .succeeded ∧ o u = true ∨ v = .failed ∧ o u = false) ∧
         st u = .running ∧ u ∉ g.continuousTasks) ∨
       (v = .skipped ∧ st u = .pending ∧ u ∈ g.tasks ∧ SkipCond g st u)) := by
  cases hstep with
  | toReady u h1 h2 h3 => exact ⟨u, _, rfl, Or.inl ⟨rfl, h1, h2, h3⟩⟩
  | toRunning u h1 => exact ⟨u, _, rfl, Or.inr (Or.inl ⟨rfl, h1⟩)⟩
  | finish u h1 h2 =>
      refine ⟨u, _, rfl, Or.inr (Or.inr (Or.inl ⟨?_, h1, h2⟩))⟩
      cases ho : o u with
      | true => exact Or.inl ⟨by simp, rfl⟩
      | false => exact Or.inr ⟨by simp, rfl⟩
  | toSkipped u h1 h2 h3 =>
      exact ⟨u, _, rfl, Or.inr (Or.inr (Or.inr ⟨rfl, h1, h2, h3⟩))⟩

theorem schedInv_step {g : SchedGraph} {o : TaskId → Bool}
    {st st' : SchedState} (hstep : Step g o st st')
    (hinv : SchedInv g o st) : SchedInv g o st' := by
  obtain ⟨hready, hskip, hsucc⟩ := hinv
  obtain ⟨u, v, hst', hcase⟩ := step_cases hstep
  subst hst'
  refine ⟨?_, ?_, ?_⟩
  · intro t ht
    by_cases hx : t = u
    · subst hx
      rw [updateState_self] at ht
      rcases hcase with ⟨hv, _, _, hrc⟩ | ⟨hv, hr⟩ | ⟨_, hr, _⟩ |
          ⟨hv, _, _, _⟩
      · exact readyCond_step hstep hrc
      · exact readyCond_step hstep (hready t (Or.inl hr))
      · exact readyCond_step hstep
          (hready t (Or.inr (Or.inl hr)))
      · subst hv
        simp at ht
    · rw [updateState_ne hx] at ht
      exact readyCond_step hstep (hready t ht)
  · intro t ht
    by_cases hx : t = u
    · subst hx
      rw [updateState_self] at ht
      subst ht
      rcases hcase with ⟨hv, _, _, _⟩ | ⟨hv, _⟩ | ⟨hv, _, _⟩ |
          ⟨_, _, _, hsc⟩
      · cases hv
      · cases hv
      · rcases hv with ⟨hv, _⟩ | ⟨hv, _⟩ <;> cases hv
      · exact skipCond_step hstep hsc
    · rw [updateState_ne hx] at ht
      exact skipCond_step hstep (hskip t ht)
  · intro t ht
    by_cases hx : t = u
    · subst hx
      rw [updateState_self] at ht
      subst ht
      rcases hcase with ⟨hv, _, _, _⟩ | ⟨hv, _⟩ | ⟨hv, _, hnc⟩ |
          ⟨hv, _, _, _⟩
      · cases hv
      · cases hv
      · rcases hv with ⟨_, ho⟩ | ⟨hv, _⟩
        · exact ⟨ho, hnc⟩
        · cases hv
      · cases hv
    · rw [updateState_ne hx] at ht
      exact hsucc t ht

theorem reachable_inv {g : SchedGraph} {o : TaskId → Bool}
    {st : SchedState} (hreach : Reachable g o st) : SchedInv g o st := by
  induction hreach with
  | refl =>
      refine ⟨?_, ?_, ?_⟩
      · intro t ht
        rcases ht with h | h | h | h <;> simp [initState] at h
      · intro t ht
        simp [initState] at ht
      · intro t ht
        simp [initState] at ht
  | tail _ hstep ih => exact schedInv_step hstep ih

theorem dependent_skipped {g : SchedGraph} {o : TaskId → Bool}
    {st : SchedState} (hreach : Reachable g o st) (hq : Quiescent g o st)
    (hwf : ∀ e ∈ g.edges, e.1 ∈ g.tasks) {x y : TaskId}
    (hedge : (x, y) ∈ g.edges) (hnc : y ∉ g.continuousTasks)
    (hbad : st y = .failed ∨ st y = .skipped) : st x = .skipped := by
  obtain ⟨hready, hskip, _⟩ := reachable_inv hreach
  cases hx : st x with
  | pending =>
      exact absurd
        (Step.toSkipped st x hx (hwf (x, y) hedge) ⟨y, hedge, hnc, hbad⟩)
        (hq _)
  | ready =>
      exfalso
      have hd := hready x (Or.inl hx) y hedge
      rw [DepSatisfied, if_neg hnc] at hd
      rcases hbad with h | h <;> simp [hd] at h
  | running =>
      exfalso
      have hd := hready x (Or.inr (Or.inl hx)) y hedge
      rw [DepSatisfied, if_neg hnc] at hd
      rcases hbad with h | h <;> simp [hd] at h
  | succeeded =>
      exfalso
      have hd := hready x (Or.inr (Or.inr (Or.inl hx))) y hedge
      rw [DepSatisfied, if_neg hnc] at hd
      rcases hbad with h | h <;> simp [hd] at h
  | failed =>
      exfalso
      have hd := hready x (Or.inr (Or.inr (Or.inr hx))) y hedge
      rw [DepSatisfied, if_neg hnc] at hd
      rcases hbad with h | h <;> simp [hd] at h
  | skipped => rfl

theorem skip_propagation {g : SchedGraph} {o : TaskId → Bool}
    {st : SchedState} (hreach : Reachable g o st) (hq : Quiescent g o st)
    (hwf : ∀ e ∈ g.edges, e.1 ∈ g.tasks) {a b : TaskId}
    (hfail : st a = .failed)
    (hdep : Relation.TransGen
      (fun x y => (x, y) ∈ g.edges ∧ y ∉ g.continuousTasks) b a) :
    st b = .skipped := by
  induction hdep using Relation.TransGen.head_induction_on with
  | base h => exact dependent_skipped hreach hq hwf h.1 h.2 (Or.inl hfail)
  | ih h _ ih => exact dependent_skipped hreach hq hwf h.1 h.2 (Or.inr ih)

/-- The chain scenario task ids: c depends on b depends on a. -/
def chainA : TaskId := ⟨"a", "build", none⟩

/-- The middle task of the chain scenario. -/
def chainB : TaskId := ⟨"b", "build", none⟩

/-- The requested root of the chain scenario. -/
def chainC : TaskId := ⟨"c", "build", none⟩

/-- The chain scheduling graph: edges b -> a and c -> b, root c, no
continuous tasks. -/
def chainGraph : SchedGraph :=
  { tasks := [chainA, chainB, chainC],
    edges := [(chainB, chainA), (chainC, chainB)],
    roots := [chainC],
    continuousTasks := [] }

/-- C2: in every complete (reachable and quiescent) execution of the
scheduler, every task that transitively depends through non-continuous
dependency edges on a failed task ends skipped; the overall run success
holds exactly when no task ended failed and no requested root ended
skipped; and in the chain where c depends on b depends on a, a failing
executor for a leaves b and c skipped and the run unsuccessful. -/
theorem claim2_skip_propagation_success :
    (∀ (g : SchedGraph) (o : TaskId → Bool) (st : SchedState),
      Reachable g o st → Quiescent g o st →
      (∀ e ∈ g.edges, e.1 ∈ g.tasks) →
      ∀ a b, st a = .failed →
        Relation.TransGen
          (fun x y => (x, y) ∈ g.edges ∧ y ∉ g.continuousTasks) b a →
        st b = .skipped) ∧
    (∀ (g : SchedGraph) (st : SchedState),
      overallSuccess g st = true ↔
        ((∀ t ∈ g.tasks, st t ≠ .failed) ∧
          (∀ r ∈ g.roots, st r ≠ .skipped))) ∧
    (∀ (o : TaskId → Bool) (st : SchedState),
      o chainA = false →
      Reachable chainGraph o st → Quiescent chainGraph o st →
      st chainB = .skipped ∧ st chainC = .skipped ∧
      overallSuccess chainGraph st = false) := by
  refine ⟨?_, ?_, ?_⟩
  · intro g o st hreach hq hwf a b hfail hdep
    exact skip_propagation hreach hq hwf hfail hdep
  · intro g st
    simp [overallSuccess, List.all_eq_true]
  · intro o st ho hreach hq
    have hwf : ∀ e ∈ chainGraph.edges, e.1 ∈ chainGraph.tasks := by decide
    obtain ⟨hready, hskip, hsucc⟩ := reachable_inv hreach
    have hA : st chainA = .failed := by
      have hnoedge : ∀ d, (chainA, d) ∈ chainGraph.edges → False := by
        intro d hd
        simp [chainGraph, chainA, chainB, chainC] at hd
      cases hx : st chainA with
      | pending =>
          exact absurd
            (Step.toReady st chainA hx (by decide)
              (fun d hd => absurd hd (fun h => hnoedge d h)))
            (hq _)
      | ready => exact absurd (Step.toRunning st chainA hx) (hq _)
      | running =>
          exact absurd (Step.finish st chainA hx (by decide)) (hq _)
      | succeeded =>
          exfalso
          have := (hsucc chainA hx).1
          rw [ho] at this
          cases this
      | failed => rfl
      | skipped =>
          exfalso
          obtain ⟨d, hd, _, _⟩ := hskip chainA hx
          exact hnoedge d hd
    have hB : st chainB = .skipped :=
      skip_propagation hreach hq hwf hA
        (Relation.TransGen.single ⟨by decide, by decide⟩)
    have hC : st chainC = .skipped :=
      skip_propagation hreach hq hwf hA
        (Relation.TransGen.head
          (show (chainC, chainB) ∈ chainGraph.edges ∧
              chainB ∉ chainGraph.continuousTasks from ⟨by decide, by decide⟩)
          (Relation.TransGen.single ⟨by decide, by decide⟩))
    refine ⟨hB, hC, ?_⟩
    simp [overallSuccess, chainGraph, hA]

/-- The executor-success oracle of the chain witness: everything fails. -/
def chainOracle : TaskId → Bool := fun _ => false

/-- The final state of the chain witness run: a failed, b and c skipped. -/
def chainFinal : SchedState :=
  updateState (updateState (updateState (updateState (updateState
    initState chainA .ready) chainA .running) chainA .failed)
    chainB .skipped) chainC .skipped

theorem chain_reachable : Reachable chainGraph chainOracle chainFinal := by
  have hnoedge : ∀ d, (chainA, d) ∈ chainGraph.edges → False := by
    intro d hd
    simp [chainGraph, chainA, chainB, chainC] at hd
  refine Relation.ReflTransGen.tail (Relation.ReflTransGen.tail
    (Relation.ReflTransGen.tail (Relation.ReflTransGen.tail
      (Relation.ReflTransGen.tail Relation.ReflTransGen.refl
        (Step.toReady initState chainA rfl (by decide)
          (fun d hd => absurd hd (fun h => hnoedge d h))))
      (Step.toRunning _ chainA (by decide)))
    (Step.finish _ chainA (by decide) (by decide)))
    (Step.toSkipped _ chainB (by decide) (by decide)
      ⟨chainA, by decide, by decide, Or.inl (by decide)⟩))
    (Step.toSkipped _ chainC (by decide) (by decide)
      ⟨chainB, by decide, by decide, Or.inr (by decide)⟩)

theorem chain_quiescent : Quiescent chainGraph chainOracle chainFinal := by
  have hnr : ∀ x, chainFinal x ≠ .ready := by
    intro x
    simp only [chainFinal, updateState, initState]
    split_ifs <;> simp
  have hnn : ∀ x, chainFinal x ≠ .running := by
    intro x
    simp only [chainFinal, updateState, initState]
    split_ifs <;> simp
  intro st' hstep
  cases hstep with
  | toReady t h1 h2 h3 =>
      simp [chainGraph] at h2
      rcases h2 with h | h | h <;> subst h <;> exact absurd h1 (by decide)
  | toRunning t h1 => exact hnr t h1
  | finish t h1 h2 => exact hnn t h1
  | toSkipped t h1 h2 h3 =>
      simp [chainGraph] at h2
      rcases h2 with h | h | h <;> subst h <;> exact absurd h1 (by decide)

/-- Witness for C2: in the concrete completed chain run with a failing,
b and c end skipped and the run is unsuccessful. -/
theorem claim2_witness :
    chainFinal chainB = .skipped ∧ chainFinal chainC = .skipped ∧
    overallSuccess chainGraph chainFinal = false :=
  claim2_skip_propagation_success.2.2 chainOracle chainFinal rfl
    chain_reachable chain_quiescent

/-- A continuous serve task used by the continuous-dependency scenario. -/
def contApi : TaskId := ⟨"api", "serve", none⟩

/-- A non-continuous task depending on the continuous serve task. -/
def contWeb : TaskId := ⟨"web", "e2e", none⟩

/-- The continuous-dependency scheduling graph: web depends on the
continuous api serve task. -/
def contGraph : SchedGraph :=
  { tasks := [contApi, contWeb],
    edges := [(contWeb, contApi)],
    roots := [contWeb],
    continuousTasks := [contApi] }

/-- C6: a task transitions to ready exactly when every non-continuous
dependency has succeeded and every continuous dependency is at least
running — any step making a pending task ready implies that condition,
and under it the ready transition is enabled — every ready task of a
reachable state satisfies it, and concretely a non-continuous task whose
continuous dependency is merely running becomes ready without the
dependency ever reaching a terminal state. -/
theorem claim6_ready_condition :
    (∀ (g : SchedGraph) (o : TaskId → Bool) (st st' : SchedState)
        (t : TaskId),
      Step g o st st' → st t = .pending → st' t = .ready →
      ReadyCond g st t) ∧
    (∀ (g : SchedGraph) (o : TaskId → Bool) (st : SchedState) (t : TaskId),
      st t = .pending → t ∈ g.tasks → ReadyCond g st t →
      Step g o st (updateState st t .ready)) ∧
    (∀ (g : SchedGraph) (o : TaskId → Bool) (st : SchedState),
      Reachable g o st → ∀ t, st t = .ready → ReadyCond g st t) ∧
    (∃ st, Reachable contGraph (fun _ => true) st ∧
      st contApi = .running ∧ st contWeb = .ready) := by
  refine ⟨?_, ?_, ?_, ?_⟩
  · intro g o st st' t hstep hp hr
    obtain ⟨u, v, hst', hcase⟩ := step_cases hstep
    subst hst'
    by_cases hx : t = u
    · subst hx
      rw [updateState_self] at hr
      subst hr
      rcases hcase with ⟨_, _, _, hrc⟩ | ⟨hv, _⟩ | ⟨hv, _, _⟩ |
          ⟨hv, _, _, _⟩
      · exact hrc
      · cases hv
      · rcases hv with ⟨hv, _⟩ | ⟨hv, _⟩ <;> cases hv
      · cases hv
    · rw [updateState_ne hx] at hr
      rw [hp] at hr
      cases hr
  · intro g o st t h1 h2 h3
    exact Step.toReady st t h1 h2 h3
  · intro g o st hreach t ht
    exact (reachable_inv hreach).1 t (Or.inl ht)
  · refine ⟨updateState (updateState (updateState initState
      contApi .ready) contApi .running) contWeb .ready, ?_, by decide,
      by decide⟩
    have hnoedge : ∀ d, (contApi, d) ∈ contGraph.edges → False := by
      intro d hd
      simp [contGraph, contApi, contWeb] at hd
    refine Relation.ReflTransGen.tail (Relation.ReflTransGen.tail
      (Relation.ReflTransGen.tail Relation.ReflTransGen.refl
        (Step.toReady initState contApi rfl (by decide)
          (fun d hd => absurd hd (fun h => hnoedge d h))))
      (Step.toRunning _ contApi (by decide)))
      (Step.toReady _ contWeb (by decide) (by decide) ?_)
    intro d hd
    simp [contGraph] at hd
    subst hd
    rw [DepSatisfied, if_pos (by decide)]
    exact Or.inl (by decide)

/-- Witness for C6: with the continuous api task running, the ready
transition of its dependent is enabled at that very state. -/
theorem claim6_witness :
    Step contGraph (fun _ => true)
      (updateState (updateState initState contApi .ready) contApi .running)
      (updateState (updateState (updateState initState contApi .ready)
        contApi .running) contWeb .ready) :=
  claim6_ready_condition.2.1 contGraph (fun _ => true)
    (updateState (updateState initState contApi .ready) contApi .running)
    contWeb (by decide) (by decide)
    (fun d hd => by
      simp [contGraph] at hd
      subst hd
      rw [DepSatisfied, if_pos (by decide)]
      exact Or.inl (by decide))
